import Mathlib

/-!
# wechat-chat-summary: a shallow embedding of `main.go`

Go strings are byte sequences; the standard-library functions the program calls
(`strings.Split`, `strings.TrimSpace`, `strings.ReplaceAll`, `strings.Contains`,
`strings.HasPrefix`, `base64.StdEncoding`) are modelled on bytes, following the
Go standard library.  The two loops of the program (`fetchEmails`,
`processEmails`) are modelled as functions from the values the environment
supplies (messages, outcomes of network calls) to the effects they perform.
-/

set_option linter.dupNamespace false

namespace WechatSummary

/-! ## Go strings -/

/-- A Go `byte`. -/
abbrev Byte := Fin 256

/-- A Go `string`: an immutable sequence of bytes. -/
abbrev GoString := List Byte

/-- The UTF-8 encoding of one code point (`utf8.EncodeRune`), used for string literals. -/
def encodeRune (r : Nat) : GoString :=
  if r < 0x80 then [Fin.ofNat r]
  else if r < 0x800 then [Fin.ofNat (0xC0 + r / 64), Fin.ofNat (0x80 + r % 64)]
  else if r < 0x10000 then
    [Fin.ofNat (0xE0 + r / 4096), Fin.ofNat (0x80 + r / 64 % 64), Fin.ofNat (0x80 + r % 64)]
  else
    [Fin.ofNat (0xF0 + r / 262144), Fin.ofNat (0x80 + r / 4096 % 64),
      Fin.ofNat (0x80 + r / 64 % 64), Fin.ofNat (0x80 + r % 64)]

/-- The bytes of a sequence of code points. -/
def encodeRunes (rs : List Nat) : GoString := rs.flatMap encodeRune

/-- A Go string literal: the UTF-8 bytes of the text. -/
def lit (s : String) : GoString := encodeRunes (s.toList.map Char.toNat)

/-- The function `strings.HasPrefix`. -/
def HasPrefix (s pre : GoString) : Bool := pre.isPrefixOf s

/-- The function `strings.Index`: the position of the first occurrence of `sep` in `s`
(`none` for the result `-1`). -/
def Index : GoString → GoString → Option Nat
  | [], sep => if sep.isEmpty then some 0 else none
  | c :: rest, sep =>
    if sep.isPrefixOf (c :: rest) then some 0 else (Index rest sep).map (· + 1)

/-- The function `strings.Contains`. -/
def Contains (s sub : GoString) : Bool := (Index s sub).isSome

/-- The loop of `strings.genSplit` for a non-empty separator: cut at the first occurrence of
`sep`, continue after it.  The first argument bounds the number of cuts. -/
def genSplit (sep : GoString) : Nat → GoString → List GoString
  | 0, s => [s]
  | n + 1, s =>
    match Index s sep with
    | none => [s]
    | some m => s.take m :: genSplit sep n (s.drop (m + sep.length))

/-- The function `strings.Split` for a non-empty separator.  A string of length `n` holds at
most `n` non-overlapping occurrences of the separator, so `n` cuts are enough. -/
def Split (s sep : GoString) : List GoString := genSplit sep s.length s

/-- The loop of `strings.Replace` for a non-empty `old` and no limit on the count. -/
def replaceLoop (old new : GoString) : Nat → GoString → GoString
  | 0, s => s
  | n + 1, s =>
    match Index s old with
    | none => s
    | some j => s.take j ++ new ++ replaceLoop old new n (s.drop (j + old.length))

/-- The function `strings.ReplaceAll` (also `strings.Replace` with count `-1`) for a
non-empty `old`. -/
def ReplaceAll (s old new : GoString) : GoString := replaceLoop old new s.length s

/-! ## UTF-8 decoding and `strings.TrimSpace` -/

/-- The constant `utf8.RuneError`. -/
def RuneError : Nat := 0xFFFD

/-- A continuation byte (`locb ≤ b ≤ hicb`). -/
def isCont (b : Byte) : Bool := 0x80 ≤ b.val && b.val ≤ 0xBF

/-- The function `utf8.RuneStart`. -/
def RuneStart (b : Byte) : Bool := !isCont b

/-- The entry `first[s0]` of package `utf8` for a byte `s0 ≥ 0x80`, with its entry of
`acceptRanges`: the width of the sequence and the range `lo..hi` of its second byte;
`none` for an invalid first byte. -/
def leadInfo (s0 : Byte) : Option (Nat × Nat × Nat) :=
  if s0.val < 0xC2 ∨ 0xF4 < s0.val then none
  else if s0.val < 0xE0 then some (2, 0x80, 0xBF)
  else if s0.val = 0xE0 then some (3, 0xA0, 0xBF)
  else if s0.val = 0xED then some (3, 0x80, 0x9F)
  else if s0.val < 0xF0 then some (3, 0x80, 0xBF)
  else if s0.val = 0xF0 then some (4, 0x90, 0xBF)
  else if s0.val = 0xF4 then some (4, 0x80, 0x8F)
  else some (4, 0x80, 0xBF)

/-- The function `utf8.DecodeRuneInString`: the first code point of `s` and its width in
bytes; an invalid or incomplete sequence gives `(RuneError, 1)`. -/
def DecodeRune : GoString → Nat × Nat
  | [] => (RuneError, 0)
  | s0 :: t =>
    if s0.val < 0x80 then (s0.val, 1)
    else
      match leadInfo s0 with
      | none => (RuneError, 1)
      | some (sz, lo, hi) =>
        if t.length + 1 < sz then (RuneError, 1)
        else
          match t with
          | [] => (RuneError, 1)
          | s1 :: t1 =>
            if s1.val < lo ∨ hi < s1.val then (RuneError, 1)
            else if sz ≤ 2 then (s0.val % 32 * 64 + s1.val % 64, 2)
            else
              match t1 with
              | [] => (RuneError, 1)
              | s2 :: t2 =>
                if !isCont s2 then (RuneError, 1)
                else if sz ≤ 3 then
                  (s0.val % 16 * 4096 + s1.val % 64 * 64 + s2.val % 64, 3)
                else
                  match t2 with
                  | [] => (RuneError, 1)
                  | s3 :: _ =>
                    if !isCont s3 then (RuneError, 1)
                    else
                      (s0.val % 8 * 262144 + s1.val % 64 * 4096 + s2.val % 64 * 64
                        + s3.val % 64, 4)

/-- The bytes `s[start:end]` that `utf8.DecodeLastRuneInString` hands to the decoder, from
the reversed string (last byte first).  The scan backwards for a rune start looks at no
more than three earlier bytes (`lim = end - UTFMax`), so the loop is written out; when it
finds none, `start` is `lim - 1`, or `0` when that is negative. -/
def lastRuneWindow : GoString → GoString
  | [] => []
  | [b0] => [b0]
  | b0 :: b1 :: rest1 =>
    if RuneStart b1 then [b1, b0]
    else
      match rest1 with
      | [] => [b1, b0]
      | b2 :: rest2 =>
        if RuneStart b2 then [b2, b1, b0]
        else
          match rest2 with
          | [] => [b2, b1, b0]
          | b3 :: rest3 =>
            if RuneStart b3 then [b3, b2, b1, b0]
            else
              match rest3 with
              | [] => [b3, b2, b1, b0]
              | b4 :: _ => [b4, b3, b2, b1, b0]

/-- The function `utf8.DecodeLastRuneInString`: the last code point of `s` and its width. -/
def DecodeLastRune (s : GoString) : Nat × Nat :=
  match s.reverse with
  | [] => (RuneError, 0)
  | b0 :: rest =>
    if b0.val < 0x80 then (b0.val, 1)
    else if (DecodeRune (lastRuneWindow (b0 :: rest))).2 ≠ (lastRuneWindow (b0 :: rest)).length
    then (RuneError, 1)
    else DecodeRune (lastRuneWindow (b0 :: rest))

/-- The function `unicode.IsSpace` (the Latin-1 cases and the `White_Space` range table). -/
def IsSpace (r : Nat) : Bool :=
  if r ≤ 0xFF then
    r = 0x09 || r = 0x0A || r = 0x0B || r = 0x0C || r = 0x0D || r = 0x20 || r = 0x85 || r = 0xA0
  else
    r = 0x1680 || (0x2000 ≤ r && r ≤ 0x200A) || r = 0x2028 || r = 0x2029 || r = 0x202F
      || r = 0x205F || r = 0x3000

/-- The loop of `strings.TrimLeftFunc(s, unicode.IsSpace)`: drop leading code points while
they are white space. -/
def trimLeftLoop : Nat → GoString → GoString
  | 0, s => s
  | n + 1, s =>
    match s with
    | [] => []
    | _ :: _ =>
      if IsSpace (DecodeRune s).1 then trimLeftLoop n (s.drop (DecodeRune s).2) else s

/-- The function `strings.TrimLeftFunc(s, unicode.IsSpace)`. -/
def TrimLeftSpace (s : GoString) : GoString := trimLeftLoop s.length s

/-- The loop of `strings.lastIndexFunc(s, unicode.IsSpace, false)` on the part `s[0:i]` still
to be looked at: the start of the last code point that is not white space. -/
def lastIndexNotSpace : Nat → GoString → Option Nat
  | 0, _ => none
  | n + 1, cur =>
    match cur with
    | [] => none
    | _ :: _ =>
      if IsSpace (DecodeLastRune cur).1 then
        lastIndexNotSpace n (cur.take (cur.length - (DecodeLastRune cur).2))
      else some (cur.length - (DecodeLastRune cur).2)

/-- The function `strings.TrimRightFunc(s, unicode.IsSpace)`. -/
def TrimRightSpace (s : GoString) : GoString :=
  match lastIndexNotSpace s.length s with
  | none => []
  | some i =>
    if 0x80 ≤ (s.getD i 0).val then s.take (i + (DecodeRune (s.drop i)).2) else s.take (i + 1)

/-- The function `strings.TrimSpace`: `TrimFunc(s, unicode.IsSpace)`, white space as defined
by Unicode removed from both ends. -/
def TrimSpace (s : GoString) : GoString := TrimRightSpace (TrimLeftSpace s)

/-! ## `encoding/base64`, `StdEncoding` -/

/-- The alphabet of `base64.StdEncoding`. -/
def encodeStd : GoString :=
  lit "ABCDEFGHIJKLMNOPQRSTUVWXYZabcdefghijklmnopqrstuvwxyz0123456789+/"

/-- The padding character `=`. -/
def padChar : Byte := 61

/-- The table `enc.encode` applied to the low six bits of `v`. -/
def encodeChar (v : Nat) : Byte := encodeStd.getD (v % 64) 0

/-- The table `enc.decodeMap`: the position of a byte in the alphabet, `0xFF` for a byte
outside it. -/
def decodeMap (b : Byte) : Nat :=
  if encodeStd.indexOf b < 64 then encodeStd.indexOf b else 0xFF

/-- The function `StdEncoding.EncodeToString`. -/
def EncodeToString : List Byte → GoString
  | a :: b :: c :: rest =>
    let val := a.val * 65536 + b.val * 256 + c.val
    encodeChar (val / 262144) :: encodeChar (val / 4096) :: encodeChar (val / 64)
      :: encodeChar val :: EncodeToString rest
  | [a, b] =>
    let val := a.val * 65536 + b.val * 256
    [encodeChar (val / 262144), encodeChar (val / 4096), encodeChar (val / 64), padChar]
  | [a] =>
    let val := a.val * 65536
    [encodeChar (val / 262144), encodeChar (val / 4096), padChar, padChar]
  | [] => []

/-- Skip line feeds and carriage returns (the inner loops of `decodeQuantum`). -/
def skipNewlines : GoString → GoString
  | [] => []
  | c :: rest => if c.val = 10 ∨ c.val = 13 then skipNewlines rest else c :: rest

/-- The value `dbuf[0]<<18 | dbuf[1]<<12 | dbuf[2]<<6 | dbuf[3]` of `decodeQuantum`. -/
def quantumVal (d0 d1 d2 d3 : Nat) : Nat := d0 * 262144 + d1 * 4096 + d2 * 64 + d3

/-- The loops of `Encoding.Decode` and `decodeQuantum` for `StdEncoding` (padded, not
strict): `dbuf` holds the six-bit values of the quantum being read.  A full quantum gives
three bytes; padding ends the input and gives one or two bytes; `none` is a
`CorruptInputError`. -/
def decodeLoop : GoString → List Nat → Option (List Byte)
  | [], dbuf => if dbuf.isEmpty then some [] else none
  | c :: rest, dbuf =>
    if decodeMap c ≠ 0xFF then
      match dbuf with
      | [d0, d1, d2] =>
        (decodeLoop rest []).map fun tl =>
          Fin.ofNat (quantumVal d0 d1 d2 (decodeMap c) / 65536)
            :: Fin.ofNat (quantumVal d0 d1 d2 (decodeMap c) / 256)
            :: Fin.ofNat (quantumVal d0 d1 d2 (decodeMap c)) :: tl
      | _ => decodeLoop rest (dbuf ++ [decodeMap c])
    else if c.val = 10 ∨ c.val = 13 then decodeLoop rest dbuf
    else if c ≠ padChar then none
    else
      match dbuf with
      | [d0, d1] =>
        match skipNewlines rest with
        | [] => none
        | p :: rest1 =>
          if p ≠ padChar then none
          else if skipNewlines rest1 ≠ [] then none
          else some [Fin.ofNat (quantumVal d0 d1 0 0 / 65536)]
      | [d0, d1, d2] =>
        if skipNewlines rest ≠ [] then none
        else
          some [Fin.ofNat (quantumVal d0 d1 d2 0 / 65536), Fin.ofNat (quantumVal d0 d1 d2 0 / 256)]
      | _ => none

/-- The function `StdEncoding.DecodeString`; `none` when it returns an error (the bytes
decoded before the error are not used by the program). -/
def DecodeString (s : GoString) : Option (List Byte) := decodeLoop s []


/-! ## The data of the program -/

/-- The type `Config` of `main.go` (the fields the two loops read). -/
structure Config.EmailConfig where
  IMAPServer : GoString
  Username : GoString
  Password : GoString
  Mailbox : GoString

/-- The field `Config.Webhook`. -/
structure Config.WebhookConfig where
  WeComUrl : GoString

/-- The field `Config.Llm`. -/
structure Config.LlmConfig where
  Host : GoString
  Api : GoString
  Token : GoString
  Model : GoString
  Prompt : GoString

/-- The type `Config`. -/
structure Config where
  Email : Config.EmailConfig
  Webhook : Config.WebhookConfig
  Llm : Config.LlmConfig

/-- The type `Message` of `main.go`: one chat message of a request or a response. -/
structure Message where
  Role : GoString
  Content : GoString
deriving DecidableEq, Repr

/-- The type `ChatGPTRequest`. -/
structure ChatGPTRequest where
  Model : GoString
  Messages : List Message
  User : GoString
deriving DecidableEq, Repr

/-- The field `Input` of `QwenRequest`. -/
structure QwenRequest.InputT where
  Messages : List Message
deriving DecidableEq, Repr

/-- The field `Parameters` of `QwenRequest`. -/
structure QwenRequest.ParametersT where
  ResultFormat : GoString
deriving DecidableEq, Repr

/-- The type `QwenRequest`. -/
structure QwenRequest where
  Model : GoString
  Input : QwenRequest.InputT
  Parameters : QwenRequest.ParametersT
deriving DecidableEq, Repr

/-- The interface `Requester`, implemented by the two request types. -/
inductive Requester where
  | qwen (r : QwenRequest)
  | chatgpt (r : ChatGPTRequest)
deriving DecidableEq, Repr

/-- One element of a `Choices` list of a response. -/
structure Choice where
  Messages : Message
deriving DecidableEq, Repr

/-- The type `ChatGPTResponse`. -/
structure ChatGPTResponse where
  Choices : List Choice
deriving DecidableEq, Repr

/-- The field `Output` of `QwenResponse`. -/
structure QwenResponse.OutputT where
  Choices : List Choice
deriving DecidableEq, Repr

/-- The type `QwenResponse`. -/
structure QwenResponse where
  Output : QwenResponse.OutputT
deriving DecidableEq, Repr

/-- The interface `ApiResponse`, implemented by the two response types. -/
inductive ApiResponse where
  | chatgpt (r : ChatGPTResponse)
  | qwen (r : QwenResponse)
deriving DecidableEq, Repr

/-- The type `imap.Address`. -/
structure imap.Address where
  MailboxName : GoString
  HostName : GoString
deriving DecidableEq, Repr

/-- The method `Address.Address`: `MailboxName + "@" + HostName`. -/
def imap.Address.Address (a : imap.Address) : GoString := a.MailboxName ++ lit "@" ++ a.HostName

/-- The type `imap.Envelope` (the fields the program reads). -/
structure imap.Envelope where
  Subject : GoString
  Sender : List imap.Address
deriving DecidableEq, Repr

/-- What `msg.GetBody` followed by `io.ReadAll` gives for one key of `msg.Body`. -/
inductive imap.Literal where
  | absent
  | unreadable
  | readable (bodyBytes : GoString)
deriving DecidableEq, Repr

/-- The type `imap.Message`.  `Envelope` is a pointer and may be nil.  `Body` is a Go map;
it is given as the list of its entries in the order in which `range` enumerates the keys. -/
structure imap.Message where
  SeqNum : Nat
  Envelope : Option imap.Envelope
  Body : List imap.Literal
deriving DecidableEq, Repr

deriving instance DecidableEq for Except

/-- A run-time panic of the Go program. -/
inductive GoPanic where
  | indexOutOfRange
  | nilDereference
deriving DecidableEq, Repr

/-- The field `Text` of `WebhookMessage`. -/
structure WebhookMessage.TextT where
  Content : GoString
deriving DecidableEq, Repr

/-- The type `WebhookMessage`. -/
structure WebhookMessage where
  MsgType : GoString
  Text : WebhookMessage.TextT
deriving DecidableEq, Repr

/-- An effect of `processEmails` outside the process: the call of `CallChatGPT` (the HTTP
POST of the request to `Host + Api` with the bearer token), the HTTP POST of
`sendSummaryToWeCom`, the `smtp.SendMail` of `sendSummaryEmail`. -/
inductive Event where
  | backendCall (url : GoString) (request : Requester) (token : GoString)
  | webhookPost (webhookUrl : GoString) (msgObj : WebhookMessage)
  | sendMail (addr fromEmail password : GoString) (sendTo : List GoString) (msg : GoString)
deriving DecidableEq, Repr

/-- Whether an event reaches one of the two sinks (webhook, reply email). -/
def Event.isSink : Event → Bool
  | .backendCall _ _ _ => false
  | .webhookPost _ _ => true
  | .sendMail _ _ _ _ _ => true

/-! ## The backend adapter -/

/-- The method `ChatGPTResponse.GetContent`. -/
def ChatGPTResponse.GetContent (r : ChatGPTResponse) : Except GoString GoString :=
  if h : r.Choices.length > 0 then .ok (r.Choices[0]).Messages.Content
  else .error (lit "no response from API")

/-- The method `QwenResponse.GetContent`. -/
def QwenResponse.GetContent (r : QwenResponse) : Except GoString GoString :=
  if h : r.Output.Choices.length > 0 then .ok (r.Output.Choices[0]).Messages.Content
  else .error (lit "no response from API")

/-- The method `GetContent` called through the interface `ApiResponse`. -/
def ApiResponse.GetContent : ApiResponse → Except GoString GoString
  | .chatgpt r => r.GetContent
  | .qwen r => r.GetContent

/-- The request that `CallChatGPT` builds (the value of `r` before `r.ToJson()`). -/
def CallChatGPT.request (config : Config) (prompt : GoString) : Requester :=
  if HasPrefix config.Llm.Model (lit "qwen") then
    .qwen
      { Model := config.Llm.Model
        Input := { Messages := [{ Role := lit "user", Content := prompt }] }
        Parameters := { ResultFormat := lit "message" } }
  else
    .chatgpt
      { Model := config.Llm.Model
        Messages := [{ Role := lit "user", Content := prompt }]
        User := [] }

/-- What `encoding/json` makes of the bytes of a response body: text that is not JSON, the
JSON literal `null`, or any other JSON value (object, array, string, number, boolean). -/
inductive JsonText where
  | malformed
  | null
  | other
deriving DecidableEq, Repr

/-- The call `json.Unmarshal(body, &resp)` of `parseLLMResponse`, where `resp` is an
`ApiResponse` interface variable holding a struct value, not a pointer: the decoder cannot
store into the struct.  Malformed text is a `SyntaxError`; the literal `null` sets the
interface to nil without an error; every other value is an `UnmarshalTypeError` and leaves
`resp` as it was.  The result is the error, or the new value of `resp` (`none`: nil). -/
def jsonUnmarshal (body : JsonText) (_resp : ApiResponse) : Except Unit (Option ApiResponse) :=
  match body with
  | .malformed => .error ()
  | .null => .ok none
  | .other => .error ()

/-- How a call of `CallChatGPT` or `parseLLMResponse` ends: with the text and a nil error,
with an error, or in a panic. -/
inductive CallResult where
  | ok (content : GoString)
  | error
  | panic (p : GoPanic)
deriving DecidableEq, Repr

/-- The function `parseLLMResponse`.  Calling `GetContent` on a nil interface panics. -/
def parseLLMResponse (body : JsonText) (model : GoString) : CallResult :=
  match jsonUnmarshal body
      (if HasPrefix model (lit "qwen") then ApiResponse.qwen { Output := { Choices := [] } }
       else ApiResponse.chatgpt { Choices := [] }) with
  | .error _ => .error
  | .ok none => .panic .nilDereference
  | .ok (some resp) =>
    match resp.GetContent with
    | .ok content => .ok content
    | .error _ => .error

/-- What the network answers to the request of `CallChatGPT`: `http.NewRequest` fails,
`httpClient.Do` fails, `io.ReadAll` fails, or a response body arrives. -/
inductive HttpOutcome where
  | requestError
  | transportError
  | readError
  | body (json : JsonText)
deriving DecidableEq, Repr

/-- The function `CallChatGPT`: the call with its request, and how it ends.  Every failure of
the exchange is returned as an error, a body goes to `parseLLMResponse`. -/
def CallChatGPT (config : Config) (prompt token : GoString) (http : HttpOutcome) :
    Event × CallResult :=
  (Event.backendCall (config.Llm.Host ++ config.Llm.Api) (CallChatGPT.request config prompt)
      token,
    match http with
    | .requestError => .error
    | .transportError => .error
    | .readError => .error
    | .body json => parseLLMResponse json config.Llm.Model)

/-! ## The fetch loop -/

/-- The constant `latestNCount` of `fetchEmails`. -/
def latestNCount : Nat := 3

/-- The batch limiting of `fetchEmails`: `ids` after the `if uint32(len(ids)) > latestNCount`
statement.  The conversion `uint32(len(ids))` keeps the length modulo `2^32`. -/
def fetchEmails.limitIds (ids : List Nat) : List Nat :=
  if ids.length % 2 ^ 32 > latestNCount then ids.drop (ids.length - latestNCount) else ids

/-- The subject test of `fetchEmails`. -/
def fetchEmails.subjectMatches (subject : GoString) : Bool :=
  Contains subject (lit "的聊天记录") || Contains subject (lit "Chat History")

/-- The messages the subject test lets through: those with an envelope whose subject holds
one of the two texts. -/
def fetchEmails.accepts (msg : imap.Message) : Bool :=
  match msg.Envelope with
  | none => false
  | some envelope => fetchEmails.subjectMatches envelope.Subject

/-- What the loop `for msg := range messages` of `fetchEmails` does to the outside: a send
on `emailChan`, a `Store` call that adds the seen flag to one sequence number. -/
inductive fetchEmails.Action where
  | send (msg : imap.Message)
  | store (seqNum : Nat)
deriving DecidableEq, Repr

/-- The effects of the loop `for msg := range messages` of `fetchEmails`: what it does, in
order; the messages sent on `emailChan`; the sequence numbers whose `Store` of the seen flag
succeeded; and whether the loop ended in `log.Fatal`. -/
structure fetchEmails.Effects where
  actions : List fetchEmails.Action
  handed : List imap.Message
  seen : List Nat
  fatal : Bool
deriving DecidableEq, Repr

/-- The loop `for msg := range messages` of `fetchEmails`.  Each fetched message comes with
the outcome of the `Store` call the loop would make for it (`true`: no error). -/
def fetchEmails.dispatch : List (imap.Message × Bool) → fetchEmails.Effects
  | [] => { actions := [], handed := [], seen := [], fatal := false }
  | (msg, storeOk) :: rest =>
    match msg.Envelope with
    | none => fetchEmails.dispatch rest
    | some envelope =>
      if fetchEmails.subjectMatches envelope.Subject then
        if storeOk then
          { actions := .send msg :: .store msg.SeqNum :: (fetchEmails.dispatch rest).actions
            handed := msg :: (fetchEmails.dispatch rest).handed
            seen := msg.SeqNum :: (fetchEmails.dispatch rest).seen
            fatal := (fetchEmails.dispatch rest).fatal }
        else
          { actions := [.send msg, .store msg.SeqNum], handed := [msg], seen := [],
            fatal := true }
      else fetchEmails.dispatch rest

/-! ## The dispatch loop -/

/-- The text `encodedContent` that `processEmails` hands to `DecodeString` for the bytes of
one body section.  The index expressions `[1]` and `[0]` panic when out of range. -/
def processEmails.encodedContent (bodyBytes : GoString) : Except GoPanic GoString :=
  match (Split bodyBytes (lit "base64"))[1]? with
  | none => .error .indexOutOfRange
  | some part =>
    match (Split (TrimSpace part) (lit "--"))[0]? with
    | none => .error .indexOutOfRange
    | some front =>
      .ok (ReplaceAll (ReplaceAll (TrimSpace front) (lit "\n") []) (lit "\r") [])

/-- The value given to `emailBody` for one readable body section: the decoded bytes, or the
raw bytes when decoding fails. -/
def processEmails.sectionContent (bodyBytes : GoString) : Except GoPanic GoString :=
  match processEmails.encodedContent bodyBytes with
  | .error p => .error p
  | .ok encodedContent =>
    match DecodeString encodedContent with
    | none => .ok bodyBytes
    | some decodedBytes => .ok decodedBytes

/-- The loop `for _, bsn := range keys` of `processEmails`: the value of `emailBody` after
the sections, starting from the value before them. -/
def processEmails.emailBody : GoString → List imap.Literal → Except GoPanic GoString
  | emailBody, [] => .ok emailBody
  | emailBody, .absent :: rest => processEmails.emailBody emailBody rest
  | emailBody, .unreadable :: rest => processEmails.emailBody emailBody rest
  | _, .readable bodyBytes :: rest =>
    match processEmails.sectionContent bodyBytes with
    | .error p => .error p
    | .ok content => processEmails.emailBody content rest

/-- What the environment answers while one message is processed: the outcome of the HTTP
exchange of `CallChatGPT`, and whether the webhook post and the SMTP delivery succeed. -/
structure Outcome where
  http : HttpOutcome
  webhookOk : Bool
  smtpOk : Bool
deriving DecidableEq, Repr

/-- The function `sendSummaryToWeCom`: the post it makes. -/
def sendSummaryToWeCom (content webhookUrl : GoString) : Event :=
  .webhookPost webhookUrl { MsgType := lit "text", Text := { Content := content } }

/-- The function `sendSummaryEmail`: the mail it sends. -/
def sendSummaryEmail (title content fromEmail sendTo password : GoString) : Event :=
  .sendMail (lit "smtp.qq.com" ++ lit ":" ++ lit "587") fromEmail password [sendTo]
    (lit "From: " ++ fromEmail ++ lit "\r\n" ++
      lit "To: " ++ sendTo ++ lit "\r\n" ++
      lit "Subject: " ++ title ++ lit "\r\n" ++
      lit "MIME-Version: 1.0;\r\n" ++
      lit "Content-Type: text/plain; charset=\"UTF-8\";\r\n" ++
      lit "Content-Transfer-Encoding: 7bit\r\n" ++
      lit "\r\n" ++
      content ++ lit "\r\n")

/-- The ways the process ends inside the loop: a panic, or `log.Fatal`. -/
inductive Halt where
  | panic (p : GoPanic)
  | fatal
deriving DecidableEq, Repr

/-- One iteration of `for msg := range emailChan` in `processEmails`: the events of the
message and, when the process ends in it, how. -/
def processEmails.step (config : Config) (msg : imap.Message) (o : Outcome) :
    List Event × Option Halt :=
  match processEmails.emailBody [] msg.Body with
  | .error p => ([], some (.panic p))
  | .ok emailBody =>
    let prompt := ReplaceAll config.Llm.Prompt (lit "[CHAT-RECORD]") emailBody
    let call := (CallChatGPT config prompt config.Llm.Token o.http).1
    match (CallChatGPT config prompt config.Llm.Token o.http).2 with
    | .panic p => ([call], some (.panic p))
    | .error => ([call], none)
    | .ok summaryContent =>
      match msg.Envelope with
      | none => ([call], some (.panic .nilDereference))
      | some envelope =>
        match envelope.Sender with
        | [] => ([call], some (.panic .indexOutOfRange))
        | first :: _ =>
          let sender := first.Address
          let post := sendSummaryToWeCom summaryContent config.Webhook.WeComUrl
          let mail := sendSummaryEmail (lit "摘要：" ++ envelope.Subject) summaryContent
            config.Email.Username sender config.Email.Password
          if !o.webhookOk then ([call, post], some .fatal)
          else if !o.smtpOk then ([call, post, mail], some .fatal)
          else ([call, post, mail], none)

/-- The function `processEmails`: the messages received from `emailChan` in order, each with
what the environment answers for it, give the events of the run and how it ends (`none`: the
channel was closed and the loop returned). -/
def processEmails (config : Config) : List (imap.Message × Outcome) → List Event × Option Halt
  | [] => ([], none)
  | (msg, o) :: rest =>
    match processEmails.step config msg o with
    | (events, some h) => (events, some h)
    | (events, none) =>
      (events ++ (processEmails config rest).1, (processEmails config rest).2)

/-! ## Reference definitions, written from the specification -/

/-- Everything after the first occurrence of `sep` (the empty string when there is none). -/
def afterFirst (sep s : GoString) : GoString :=
  match Index s sep with
  | none => []
  | some m => s.drop (m + sep.length)

/-- Everything before the first occurrence of `sep` (all of `s` when there is none). -/
def beforeFirst (sep s : GoString) : GoString :=
  match Index s sep with
  | none => s
  | some m => s.take m

/-- Delete every line feed and carriage return. -/
def removeNewlines (s : GoString) : GoString := s.filter fun b => b.val ≠ 10 ∧ b.val ≠ 13

/-- The extraction text as the specification words it: everything after the first
`base64`, of that everything before the first `--`, white space stripped at both ends, line
feeds and carriage returns deleted. -/
def specEncodedContent (body : GoString) : GoString :=
  removeNewlines (TrimSpace (beforeFirst (lit "--") (afterFirst (lit "base64") body)))

/-- The extraction text with the amendment: the remainder after the first `base64` is cut
at the next `base64`, when there is one, before the cut at `--`. -/
def amendedEncodedContent (body : GoString) : GoString :=
  removeNewlines (TrimSpace (beforeFirst (lit "--")
    (beforeFirst (lit "base64") (afterFirst (lit "base64") body))))

/-- A byte of the standard base64 alphabet. -/
def isStdAlphabet (b : Byte) : Bool :=
  (65 ≤ b.val && b.val ≤ 90) || (97 ≤ b.val && b.val ≤ 122) || (48 ≤ b.val && b.val ≤ 57)
    || b.val = 43 || b.val = 47

/-- Valid padded base64 over the standard alphabet: groups of four alphabet characters, the
last group possibly ending in one or two `=`. -/
def validStdBase64 : GoString → Bool
  | [] => true
  | [a, b, c, d] =>
    isStdAlphabet a && isStdAlphabet b &&
      ((isStdAlphabet c && (isStdAlphabet d || d = padChar)) || (c = padChar && d = padChar))
  | a :: b :: c :: d :: rest =>
    isStdAlphabet a && isStdAlphabet b && isStdAlphabet c && isStdAlphabet d
      && validStdBase64 rest
  | _ => false

/-! ## Example values, used to instantiate the theorems -/

/-- A configuration with a ChatGPT-style model. -/
def exampleConfig : Config :=
  { Email := { IMAPServer := lit "imap.qq.com:993", Username := lit "me@qq.com",
               Password := lit "secret", Mailbox := lit "INBOX" }
    Webhook := { WeComUrl := lit "https://hook" }
    Llm := { Host := lit "https://llm", Api := lit "/v1/chat", Token := lit "t",
             Model := lit "gpt-4", Prompt := lit "Summarise: [CHAT-RECORD]" } }

/-- A message whose body section holds the base64 text of "ABC". -/
def exampleMessage : imap.Message :=
  { SeqNum := 12
    Envelope := some { Subject := lit "老王的聊天记录"
                       Sender := [{ MailboxName := lit "wang", HostName := lit "qq.com" }] }
    Body := [.readable (lit "...base64\nQUJD\n--end")] }

/-- A message whose body section is marked but is not base64. -/
def exampleRawMessage : imap.Message :=
  { SeqNum := 13
    Envelope := some { Subject := lit "Chat History"
                       Sender := [{ MailboxName := lit "li", HostName := lit "qq.com" }] }
    Body := [.readable (lit "base64 !!! --")] }

/-- A message with a matching subject whose body section has no literal. -/
def exampleEmptyMessage : imap.Message :=
  { SeqNum := 14
    Envelope := some { Subject := lit "Chat History"
                       Sender := [{ MailboxName := lit "li", HostName := lit "qq.com" }] }
    Body := [.absent] }

/-- The environment lets the HTTP exchange of the backend call fail. -/
def backendFails : Outcome := { http := .transportError, webhookOk := true, smtpOk := true }

/-- The backend answers with the response body `null`. -/
def backendSendsNull : Outcome := { http := .body .null, webhookOk := true, smtpOk := true }

/-- The backend answers with a JSON object. -/
def backendSendsObject : Outcome := { http := .body .other, webhookOk := true, smtpOk := true }


/-! ## Backend adapter -/

/-- C5: for both response variants, `GetContent` returns the error "no response from API"
exactly when the choices list is empty, and otherwise succeeds with the message content of
the first choice; with zero choices it never succeeds (in particular not with the empty
string).  The same holds through the interface `ApiResponse`. -/
theorem GetContent_error_iff_no_choices (a : ChatGPTResponse) (q : QwenResponse) :
    (a.GetContent = .error (lit "no response from API") ↔ a.Choices = [])
    ∧ (∀ s, a.GetContent = .ok s ↔ ∃ c rest, a.Choices = c :: rest ∧ s = c.Messages.Content)
    ∧ (q.GetContent = .error (lit "no response from API") ↔ q.Output.Choices = [])
    ∧ (∀ s, q.GetContent = .ok s ↔
        ∃ c rest, q.Output.Choices = c :: rest ∧ s = c.Messages.Content)
    ∧ (ApiResponse.chatgpt a).GetContent = a.GetContent
    ∧ (ApiResponse.qwen q).GetContent = q.GetContent := by
  refine ⟨?_, ?_, ?_, ?_, rfl, rfl⟩
  · rcases a with ⟨_ | ⟨c, rest⟩⟩ <;> simp [ChatGPTResponse.GetContent]
  · intro s
    rcases a with ⟨_ | ⟨c, rest⟩⟩ <;> simp [ChatGPTResponse.GetContent, eq_comm]
  · rcases q with ⟨⟨_ | ⟨c, rest⟩⟩⟩ <;> simp [QwenResponse.GetContent]
  · intro s
    rcases q with ⟨⟨_ | ⟨c, rest⟩⟩⟩ <;> simp [QwenResponse.GetContent, eq_comm]

/-- C6: the request built by `CallChatGPT` has the Qwen shape (model, input.messages,
parameters.result_format = "message") if and only if the model name starts with "qwen", and
otherwise the ChatGPT shape (model, messages, user = ""); in both shapes the model is the
configured model name and the messages are exactly one message with role "user" and the
prompt as content. -/
theorem CallChatGPT_request_shape (config : Config) (prompt : GoString) :
    ((∃ t, config.Llm.Model = lit "qwen" ++ t) ↔
      CallChatGPT.request config prompt =
        .qwen
          { Model := config.Llm.Model
            Input := { Messages := [{ Role := lit "user", Content := prompt }] }
            Parameters := { ResultFormat := lit "message" } })
    ∧ ((¬ ∃ t, config.Llm.Model = lit "qwen" ++ t) ↔
      CallChatGPT.request config prompt =
        .chatgpt
          { Model := config.Llm.Model
            Messages := [{ Role := lit "user", Content := prompt }]
            User := [] }) := by
  have hp : HasPrefix config.Llm.Model (lit "qwen") = true
      ↔ ∃ t, config.Llm.Model = lit "qwen" ++ t := by
    unfold HasPrefix
    rw [List.isPrefixOf_iff_prefix]
    constructor
    · rintro ⟨t, ht⟩
      exact ⟨t, ht.symm⟩
    · rintro ⟨t, ht⟩
      exact ⟨t, ht.symm⟩
  unfold CallChatGPT.request
  by_cases h : HasPrefix config.Llm.Model (lit "qwen") = true
  · have h2 := hp.mp h
    simp [h, h2]
  · have h2 : ¬ ∃ t, config.Llm.Model = lit "qwen" ++ t := fun hx => h (hp.mpr hx)
    simp [h, h2]

/-! ## Fetch loop -/

/-- A search result, a list of distinct message sequence numbers (32-bit, from 1 on), has
fewer than `2^32` entries. -/
theorem search_result_length (ids : List Nat) (hnd : ids.Nodup)
    (hr : ∀ i ∈ ids, 1 ≤ i ∧ i < 2 ^ 32) : ids.length < 2 ^ 32 := by
  have hsub : ids.toFinset ⊆ Finset.Icc 1 (2 ^ 32 - 1) := by
    intro i hi
    rw [List.mem_toFinset] at hi
    have := hr i hi
    rw [Finset.mem_Icc]
    omega
  have hcard := Finset.card_le_card hsub
  rw [List.toFinset_card_of_nodup hnd, Nat.card_Icc] at hcard
  omega

/-- C7: batch limiting in `fetchEmails`.  For every list of unread sequence numbers returned
by the search (a list of fewer than `2^32` entries, as every list of distinct 32-bit sequence
numbers is: the code compares `uint32(len(ids))`), the list that is fetched is the whole
list when it has at most 3 elements and otherwise exactly its last 3 elements in their
original order; it is always the final segment of length `min n 3`. -/
theorem limitIds_last_three (ids : List Nat) (hlen : ids.length < 2 ^ 32) :
    (ids.length ≤ 3 → fetchEmails.limitIds ids = ids)
    ∧ (3 < ids.length → fetchEmails.limitIds ids = ids.drop (ids.length - 3))
    ∧ fetchEmails.limitIds ids <:+ ids
    ∧ (fetchEmails.limitIds ids).length = min ids.length 3 := by
  have hmod : ids.length % 2 ^ 32 = ids.length := Nat.mod_eq_of_lt hlen
  by_cases h : 3 < ids.length
  · have e : fetchEmails.limitIds ids = ids.drop (ids.length - 3) := by
      unfold fetchEmails.limitIds latestNCount
      rw [hmod]
      exact if_pos h
    rw [e]
    refine ⟨fun h2 => absurd h2 (by omega), fun _ => rfl, List.drop_suffix _ _, ?_⟩
    rw [List.length_drop]
    omega
  · have e : fetchEmails.limitIds ids = ids := by
      unfold fetchEmails.limitIds latestNCount
      rw [hmod]
      exact if_neg h
    rw [e]
    refine ⟨fun _ => rfl, fun h2 => absurd h2 h, List.suffix_refl _, ?_⟩
    omega

/-- The witness of C7: the unread list `[10,11,12,13,14]` gives `[12,13,14]`. -/
theorem limitIds_last_three_witness :
    fetchEmails.limitIds [10, 11, 12, 13, 14] = [12, 13, 14] :=
  (limitIds_last_three [10, 11, 12, 13, 14]
    (search_result_length _ (by decide) (by decide))).2.1 (by decide)


/-! ## `strings.Index`, `strings.Split`, `strings.ReplaceAll` -/

theorem Index_eq_some_iff (sep : GoString) (s : GoString) (m : Nat) :
    Index s sep = some m ↔
      (sep <+: s.drop m ∧ m ≤ s.length ∧ ∀ j, j < m → ¬ sep <+: s.drop j) := by
  induction s generalizing m with
  | nil =>
    simp only [Index, List.drop_nil, List.length_nil, Nat.le_zero_eq, List.prefix_nil]
    by_cases h : sep = []
    · subst h
      simp only [List.isEmpty_nil, if_true, Option.some.injEq, true_and]
      constructor
      · intro h; subst h; simp
      · intro h; exact h.1.symm
    · have : sep.isEmpty = false := by
        cases sep with
        | nil => exact absurd rfl h
        | cons a t => rfl
      simp [this, h]
  | cons c rest ih =>
    unfold Index
    by_cases hp : sep <+: c :: rest
    · have hp2 : sep.isPrefixOf (c :: rest) = true := List.isPrefixOf_iff_prefix.mpr hp
      rw [if_pos hp2]
      constructor
      · intro h
        injection h with h
        subst h
        exact ⟨hp, Nat.zero_le _, fun j hj => absurd hj (Nat.not_lt_zero j)⟩
      · rintro ⟨_, _, h3⟩
        rcases Nat.eq_zero_or_pos m with h0 | h0
        · rw [h0]
        · exact absurd hp (h3 0 h0)
    · have hp2 : ¬ sep.isPrefixOf (c :: rest) = true := fun h =>
        hp (List.isPrefixOf_iff_prefix.mp h)
      rw [if_neg hp2]
      cases m with
      | zero =>
        simp only [List.drop_zero, Nat.zero_le, true_and]
        constructor
        · intro h
          cases hI : Index rest sep <;> simp [hI] at h
        · intro h
          exact absurd h.1 hp
      | succ k =>
        simp only [List.drop_succ_cons, List.length_cons, Nat.add_le_add_iff_right]
        constructor
        · intro h
          cases hI : Index rest sep with
          | none => simp [hI] at h
          | some v =>
            simp only [hI, Option.map_some', Option.some.injEq, Nat.add_right_cancel_iff] at h
            subst h
            obtain ⟨h1, h2, h3⟩ := (ih v).mp hI
            refine ⟨h1, h2, ?_⟩
            intro j hj
            cases j with
            | zero => exact hp
            | succ i => exact h3 i (by omega)
        · rintro ⟨h1, h2, h3⟩
          have := (ih k).mpr ⟨h1, h2, fun j hj => by
            have := h3 (j + 1) (by omega)
            simpa using this⟩
          simp [this]

theorem Index_eq_none_iff (sep : GoString) (s : GoString) :
    Index s sep = none ↔ ¬ sep <:+: s := by
  induction s with
  | nil =>
    cases sep with
    | nil => simp [Index]
    | cons a t => simp [Index]
  | cons c rest ih =>
    unfold Index
    by_cases hp : sep <+: c :: rest
    · have hp2 : sep.isPrefixOf (c :: rest) = true := List.isPrefixOf_iff_prefix.mpr hp
      rw [if_pos hp2]
      simp only [reduceCtorEq, false_iff, not_not]
      exact hp.isInfix
    · have hp2 : ¬ sep.isPrefixOf (c :: rest) = true := fun h =>
        hp (List.isPrefixOf_iff_prefix.mp h)
      rw [if_neg hp2, Option.map_eq_none', ih, List.infix_cons_iff]
      tauto

theorem Contains_iff_occurs (s sub : GoString) : Contains s sub = true ↔ sub <:+: s := by
  unfold Contains
  rw [Option.isSome_iff_ne_none, ne_eq, Index_eq_none_iff, not_not]

theorem Contains_eq_false_iff (s sub : GoString) : Contains s sub = false ↔ ¬ sub <:+: s := by
  rw [← Contains_iff_occurs]
  simp

theorem Index_lt_length_add {sep s : GoString} {m : Nat} (h : Index s sep = some m) :
    m + sep.length ≤ s.length := by
  obtain ⟨h1, h2, _⟩ := (Index_eq_some_iff sep s m).mp h
  have := h1.length_le
  rw [List.length_drop] at this
  omega

theorem Index_split {sep s : GoString} {m : Nat} (h : Index s sep = some m) :
    s = s.take m ++ sep ++ s.drop (m + sep.length) := by
  obtain ⟨h1, _, _⟩ := (Index_eq_some_iff sep s m).mp h
  obtain ⟨t, ht⟩ := h1
  have e : s.drop (m + sep.length) = t := by
    rw [← List.drop_drop, ← ht]
    simp
  rw [e, List.append_assoc, ht, List.take_append_drop]


theorem Index_nil_left {sep : GoString} (h : sep ≠ []) : Index [] sep = none := by
  cases sep with
  | nil => exact absurd rfl h
  | cons a t => rfl

theorem genSplit_fuel {sep : GoString} (hsep : sep ≠ []) (n m : Nat) (s : GoString)
    (hn : s.length ≤ n) (hm : s.length ≤ m) : genSplit sep n s = genSplit sep m s := by
  induction n generalizing m s with
  | zero =>
    have hs : s = [] := List.length_eq_zero.mp (Nat.le_zero.mp hn)
    subst hs
    cases m with
    | zero => rfl
    | succ k => simp [genSplit, Index_nil_left hsep]
  | succ k ih =>
    cases m with
    | zero =>
      have hs : s = [] := List.length_eq_zero.mp (Nat.le_zero.mp hm)
      subst hs
      simp [genSplit, Index_nil_left hsep]
    | succ j =>
      unfold genSplit
      cases hI : Index s sep with
      | none => rfl
      | some v =>
        simp only
        have hl := Index_lt_length_add hI
        have hpos : 0 < sep.length := List.length_pos.mpr hsep
        rw [ih j (s.drop (v + sep.length)) (by rw [List.length_drop]; omega)
          (by rw [List.length_drop]; omega)]

theorem Split_of_Index_none {sep s : GoString} (h : Index s sep = none) :
    Split s sep = [s] := by
  unfold Split
  cases hs : s.length with
  | zero => rfl
  | succ k => simp [genSplit, h]

theorem Split_of_Index_some {sep s : GoString} {m : Nat} (hsep : sep ≠ [])
    (h : Index s sep = some m) :
    Split s sep = s.take m :: Split (s.drop (m + sep.length)) sep := by
  unfold Split
  have hl := Index_lt_length_add h
  have hpos : 0 < sep.length := List.length_pos.mpr hsep
  cases hs : s.length with
  | zero => omega
  | succ k =>
    simp only [genSplit, h]
    rw [genSplit_fuel hsep k (s.drop (m + sep.length)).length _
      (by rw [List.length_drop]; omega) (le_refl _)]

/-- The first piece of a split is what stands before the first separator. -/
theorem Split_getElem_zero {sep : GoString} (hsep : sep ≠ []) (s : GoString) :
    (Split s sep)[0]? = some (beforeFirst sep s) := by
  unfold beforeFirst
  cases h : Index s sep with
  | none => simp [Split_of_Index_none h]
  | some m => simp [Split_of_Index_some hsep h]

/-- The second piece of a split: none without a separator, else what stands between the
first separator and the next one. -/
theorem Split_getElem_one {sep : GoString} (hsep : sep ≠ []) (s : GoString) :
    (Split s sep)[1]? =
      if Contains s sep then some (beforeFirst sep (afterFirst sep s)) else none := by
  unfold Contains afterFirst
  cases h : Index s sep with
  | none => simp [Split_of_Index_none h]
  | some m =>
    simp only [Split_of_Index_some hsep h, Option.isSome_some, if_true]
    rw [List.getElem?_cons_succ, Split_getElem_zero hsep]

theorem replaceLoop_fuel {old : GoString} (new : GoString) (hold : old ≠ []) (n m : Nat)
    (s : GoString) (hn : s.length ≤ n) (hm : s.length ≤ m) :
    replaceLoop old new n s = replaceLoop old new m s := by
  induction n generalizing m s with
  | zero =>
    have hs : s = [] := List.length_eq_zero.mp (Nat.le_zero.mp hn)
    subst hs
    cases m with
    | zero => rfl
    | succ k => simp [replaceLoop, Index_nil_left hold]
  | succ k ih =>
    cases m with
    | zero =>
      have hs : s = [] := List.length_eq_zero.mp (Nat.le_zero.mp hm)
      subst hs
      simp [replaceLoop, Index_nil_left hold]
    | succ j =>
      unfold replaceLoop
      cases hI : Index s old with
      | none => rfl
      | some v =>
        simp only
        have hl := Index_lt_length_add hI
        have hpos : 0 < old.length := List.length_pos.mpr hold
        rw [ih j (s.drop (v + old.length)) (by rw [List.length_drop]; omega)
          (by rw [List.length_drop]; omega)]

theorem ReplaceAll_of_Index_none {old new s : GoString} (h : Index s old = none) :
    ReplaceAll s old new = s := by
  unfold ReplaceAll
  cases hs : s.length with
  | zero => rfl
  | succ k => simp [replaceLoop, h]

theorem ReplaceAll_of_Index_some {old new s : GoString} {j : Nat} (hold : old ≠ [])
    (h : Index s old = some j) :
    ReplaceAll s old new = s.take j ++ new ++ ReplaceAll (s.drop (j + old.length)) old new := by
  unfold ReplaceAll
  have hl := Index_lt_length_add h
  have hpos : 0 < old.length := List.length_pos.mpr hold
  cases hs : s.length with
  | zero => omega
  | succ k =>
    simp only [replaceLoop, h]
    rw [replaceLoop_fuel new hold k (s.drop (j + old.length)).length _
      (by rw [List.length_drop]; omega) (le_refl _)]

/-- Replacing a one-byte string by the empty string deletes every occurrence of the byte. -/
theorem ReplaceAll_single_nil (c : Byte) (s : GoString) :
    ReplaceAll s [c] [] = s.filter fun b => decide (b ≠ c) := by
  induction s with
  | nil => rfl
  | cons a t ih =>
    by_cases hac : a = c
    · subst hac
      have hI : Index (a :: t) [a] = some 0 := by simp [Index, List.isPrefixOf]
      rw [ReplaceAll_of_Index_some (by simp) hI]
      simp [ih]
    · cases hI : Index t [c] with
      | none =>
        have hI2 : Index (a :: t) [c] = none := by
          simp [Index, List.isPrefixOf, hI, Ne.symm hac]
        rw [ReplaceAll_of_Index_none hI2]
        rw [ReplaceAll_of_Index_none hI] at ih
        rw [List.filter_cons_of_pos (by simpa using hac), ← ih]
      | some j =>
        have hI2 : Index (a :: t) [c] = some (j + 1) := by
          simp [Index, List.isPrefixOf, hI, Ne.symm hac]
        rw [ReplaceAll_of_Index_some (by simp) hI2]
        rw [ReplaceAll_of_Index_some (by simp) hI] at ih
        rw [List.filter_cons_of_pos (by simpa using hac), ← ih]
        simp

theorem lit_newline : lit "\n" = [10] := by decide

theorem lit_return : lit "\r" = [13] := by decide

/-- The two `ReplaceAll` calls of `processEmails` delete every line feed and every carriage
return. -/
theorem ReplaceAll_newlines (s : GoString) :
    ReplaceAll (ReplaceAll s (lit "\n") []) (lit "\r") [] = removeNewlines s := by
  rw [lit_newline, lit_return, ReplaceAll_single_nil, ReplaceAll_single_nil]
  unfold removeNewlines
  rw [List.filter_filter]
  congr 1
  funext b
  have e1 : b ≠ (10 : Byte) ↔ b.val ≠ 10 := by
    rw [ne_eq, ne_eq, Fin.ext_iff]; rfl
  have e2 : b ≠ (13 : Byte) ↔ b.val ≠ 13 := by
    rw [ne_eq, ne_eq, Fin.ext_iff]; rfl
  simp only [e1, e2, Bool.decide_and, Bool.and_comm]


/-! ## The loop `for msg := range messages` of `fetchEmails` -/

theorem accepts_iff (msg : imap.Message) :
    fetchEmails.accepts msg = true ↔
      ∃ envelope, msg.Envelope = some envelope ∧
        (lit "的聊天记录" <:+: envelope.Subject ∨ lit "Chat History" <:+: envelope.Subject) := by
  unfold fetchEmails.accepts
  cases h : msg.Envelope with
  | none => simp
  | some envelope =>
    simp [fetchEmails.subjectMatches, Contains_iff_occurs]

theorem dispatch_cons_accept_ok (msg : imap.Message) (rest : List (imap.Message × Bool))
    (h : fetchEmails.accepts msg = true) :
    fetchEmails.dispatch ((msg, true) :: rest) =
      { actions := .send msg :: .store msg.SeqNum :: (fetchEmails.dispatch rest).actions
        handed := msg :: (fetchEmails.dispatch rest).handed
        seen := msg.SeqNum :: (fetchEmails.dispatch rest).seen
        fatal := (fetchEmails.dispatch rest).fatal } := by
  unfold fetchEmails.accepts at h
  cases hE : msg.Envelope with
  | none => simp [hE] at h
  | some envelope =>
    simp only [hE] at h
    simp [fetchEmails.dispatch, hE, h]

theorem dispatch_cons_accept_fail (msg : imap.Message) (rest : List (imap.Message × Bool))
    (h : fetchEmails.accepts msg = true) :
    fetchEmails.dispatch ((msg, false) :: rest) =
      { actions := [.send msg, .store msg.SeqNum], handed := [msg], seen := [],
        fatal := true } := by
  unfold fetchEmails.accepts at h
  cases hE : msg.Envelope with
  | none => simp [hE] at h
  | some envelope =>
    simp only [hE] at h
    simp [fetchEmails.dispatch, hE, h]

theorem dispatch_cons_reject (msg : imap.Message) (b : Bool)
    (rest : List (imap.Message × Bool)) (h : fetchEmails.accepts msg = false) :
    fetchEmails.dispatch ((msg, b) :: rest) = fetchEmails.dispatch rest := by
  unfold fetchEmails.accepts at h
  cases hE : msg.Envelope with
  | none => simp [fetchEmails.dispatch, hE]
  | some envelope =>
    simp only [hE] at h
    simp [fetchEmails.dispatch, hE, h]

/-- In every run of the loop, whatever the `Store` calls answer, the messages handed off are
the first ones of the matching messages, in the order fetched, and the sequence numbers
marked seen are the first ones of theirs. -/
theorem dispatch_handed_initial (batch : List (imap.Message × Bool)) :
    (fetchEmails.dispatch batch).handed <+: (batch.map Prod.fst).filter fetchEmails.accepts
    ∧ (fetchEmails.dispatch batch).seen <+:
        ((batch.map Prod.fst).filter fetchEmails.accepts).map imap.Message.SeqNum := by
  induction batch with
  | nil => simp [fetchEmails.dispatch]
  | cons e rest ih =>
    obtain ⟨msg, b⟩ := e
    obtain ⟨ih1, ih2⟩ := ih
    cases hacc : fetchEmails.accepts msg with
    | false =>
      rw [dispatch_cons_reject msg b rest hacc]
      simp only [List.map_cons, List.filter_cons, hacc, Bool.false_eq_true, if_false]
      exact ⟨ih1, ih2⟩
    | true =>
      simp only [List.map_cons, List.filter_cons, hacc, if_true]
      cases b with
      | true =>
        rw [dispatch_cons_accept_ok msg rest hacc]
        exact ⟨(List.prefix_cons_inj msg).mpr ih1, (List.prefix_cons_inj _).mpr ih2⟩
      | false =>
        rw [dispatch_cons_accept_fail msg rest hacc]
        exact ⟨(List.prefix_cons_inj msg).mpr List.nil_prefix, List.nil_prefix⟩

/-- C8, as stated, fails: of two fetched messages with matching subjects, when the `Store`
call for the first one fails, the first one has been handed off but is not marked seen, and
the second one is never handed off: the loop has ended in `log.Fatal`. -/
theorem dispatch_store_failure :
    fetchEmails.accepts exampleMessage = true
    ∧ fetchEmails.accepts exampleRawMessage = true
    ∧ fetchEmails.dispatch [(exampleMessage, false), (exampleRawMessage, true)] =
        { actions := [.send exampleMessage, .store 12], handed := [exampleMessage], seen := [],
          fatal := true } := by
  decide

/-- C8, amended: the subject filter of `fetchEmails`.  For every fetched batch in which no
`Store` call fails, a message is handed to the dispatch channel and then marked seen if and
only if it has an envelope whose subject contains "的聊天记录" or "Chat History"; every other
message is neither handed off nor marked seen, and the handed-off messages keep the order
in which they were fetched: the loop does, for each matching message in fetch order, the
send and then the `Store`, and nothing else. -/
theorem dispatch_subject_filter (batch : List (imap.Message × Bool))
    (hstore : ∀ e ∈ batch, fetchEmails.accepts e.1 = true → e.2 = true) :
    (fetchEmails.dispatch batch).actions
        = ((batch.map Prod.fst).filter fetchEmails.accepts).flatMap
            (fun msg => [fetchEmails.Action.send msg, fetchEmails.Action.store msg.SeqNum])
    ∧ (fetchEmails.dispatch batch).handed = (batch.map Prod.fst).filter fetchEmails.accepts
    ∧ (fetchEmails.dispatch batch).seen
        = ((batch.map Prod.fst).filter fetchEmails.accepts).map imap.Message.SeqNum
    ∧ (fetchEmails.dispatch batch).fatal = false
    ∧ ∀ msg ∈ batch.map Prod.fst,
        (msg ∈ (fetchEmails.dispatch batch).handed ↔
          ∃ envelope, msg.Envelope = some envelope ∧
            (lit "的聊天记录" <:+: envelope.Subject
              ∨ lit "Chat History" <:+: envelope.Subject)) := by
  have hmain : (fetchEmails.dispatch batch).actions
        = ((batch.map Prod.fst).filter fetchEmails.accepts).flatMap
            (fun msg => [fetchEmails.Action.send msg, fetchEmails.Action.store msg.SeqNum])
      ∧ (fetchEmails.dispatch batch).handed = (batch.map Prod.fst).filter fetchEmails.accepts
      ∧ (fetchEmails.dispatch batch).seen
          = ((batch.map Prod.fst).filter fetchEmails.accepts).map imap.Message.SeqNum
      ∧ (fetchEmails.dispatch batch).fatal = false := by
    induction batch with
    | nil => simp [fetchEmails.dispatch]
    | cons e rest ih =>
      obtain ⟨msg, b⟩ := e
      obtain ⟨h0, h1, h2, h3⟩ := ih (fun e he hx => hstore e (List.mem_cons_of_mem _ he) hx)
      cases hacc : fetchEmails.accepts msg with
      | false =>
        rw [dispatch_cons_reject msg b rest hacc]
        simp only [List.map_cons, List.filter_cons, hacc, Bool.false_eq_true, if_false]
        exact ⟨h0, h1, h2, h3⟩
      | true =>
        have hb : b = true := hstore (msg, b) (List.mem_cons_self _ _) hacc
        subst hb
        rw [dispatch_cons_accept_ok msg rest hacc]
        simp only [List.map_cons, List.filter_cons, hacc, if_true, List.flatMap_cons,
          List.cons_append, List.nil_append]
        exact ⟨by rw [h0], by rw [h1], by rw [h2], h3⟩
  obtain ⟨h0, h1, h2, h3⟩ := hmain
  refine ⟨h0, h1, h2, h3, ?_⟩
  intro msg hm
  rw [← accepts_iff, h1, List.mem_filter]
  exact ⟨fun h => h.2, fun h => ⟨hm, h⟩⟩

/-- The witness of the amended C8: of two fetched messages with the subjects
"老王的聊天记录" and "Unrelated", the first one is dispatched and marked seen, the second one
is not. -/
theorem dispatch_subject_filter_witness :
    (fetchEmails.dispatch
        [({ SeqNum := 7, Envelope := some { Subject := lit "老王的聊天记录", Sender := [] },
            Body := [] }, true),
         ({ SeqNum := 8, Envelope := some { Subject := lit "Unrelated", Sender := [] },
            Body := [] }, true)]).handed
      = [{ SeqNum := 7, Envelope := some { Subject := lit "老王的聊天记录", Sender := [] },
           Body := [] }]
    ∧ (fetchEmails.dispatch
        [({ SeqNum := 7, Envelope := some { Subject := lit "老王的聊天记录", Sender := [] },
            Body := [] }, true),
         ({ SeqNum := 8, Envelope := some { Subject := lit "Unrelated", Sender := [] },
            Body := [] }, true)]).seen = [7] := by
  have h := dispatch_subject_filter
        [({ SeqNum := 7, Envelope := some { Subject := lit "老王的聊天记录", Sender := [] },
            Body := [] }, true),
         ({ SeqNum := 8, Envelope := some { Subject := lit "Unrelated", Sender := [] },
            Body := [] }, true)] (by decide)
  exact ⟨h.2.1.trans (by decide), h.2.2.1.trans (by decide)⟩


/-! ## The loop of `processEmails` -/

theorem lit_base64_ne_nil : lit "base64" ≠ [] := by decide

theorem lit_dashes_ne_nil : lit "--" ≠ [] := by decide

theorem encodedContent_of_not_Contains (bodyBytes : GoString)
    (h : Contains bodyBytes (lit "base64") = false) :
    processEmails.encodedContent bodyBytes = .error .indexOutOfRange := by
  unfold processEmails.encodedContent
  rw [Split_getElem_one lit_base64_ne_nil, h]
  rfl

theorem emailBody_no_readable (start : GoString) (body : List imap.Literal)
    (h : ∀ l ∈ body, l = .absent ∨ l = .unreadable) :
    processEmails.emailBody start body = .ok start := by
  induction body with
  | nil => rfl
  | cons l rest ih =>
    have hrest := ih (fun x hx => h x (List.mem_cons_of_mem _ hx))
    rcases h l (List.mem_cons_self _ _) with hl | hl <;> subst hl <;>
      simpa [processEmails.emailBody] using hrest

theorem processEmails_cons_continue (config : Config) (msg : imap.Message) (o : Outcome)
    (rest : List (imap.Message × Outcome)) (events : List Event)
    (h : processEmails.step config msg o = (events, none)) :
    processEmails config ((msg, o) :: rest) =
      (events ++ (processEmails config rest).1, (processEmails config rest).2) := by
  simp [processEmails, h]

theorem processEmails_cons_halt (config : Config) (msg : imap.Message) (o : Outcome)
    (rest : List (imap.Message × Outcome)) (events : List Event) (halt : Halt)
    (h : processEmails.step config msg o = (events, some halt)) :
    processEmails config ((msg, o) :: rest) = (events, some halt) := by
  simp [processEmails, h]

theorem processEmails_append (config : Config) (front back : List (imap.Message × Outcome)) :
    processEmails config (front ++ back) =
      match (processEmails config front).2 with
      | some halt => ((processEmails config front).1, some halt)
      | none =>
        ((processEmails config front).1 ++ (processEmails config back).1,
          (processEmails config back).2) := by
  induction front with
  | nil => simp [processEmails]
  | cons e rest ih =>
    obtain ⟨msg, o⟩ := e
    rcases hstep : processEmails.step config msg o with ⟨events, _ | halt⟩
    · rw [List.cons_append, processEmails_cons_continue config msg o _ events hstep,
        processEmails_cons_continue config msg o _ events hstep, ih]
      cases h2 : (processEmails config rest).2 <;> simp
    · rw [List.cons_append, processEmails_cons_halt config msg o _ events halt hstep,
        processEmails_cons_halt config msg o _ events halt hstep]

theorem CallChatGPT_call (config : Config) (prompt token : GoString) (http : HttpOutcome) :
    (CallChatGPT config prompt token http).1 =
      Event.backendCall (config.Llm.Host ++ config.Llm.Api) (CallChatGPT.request config prompt)
        token := rfl

/-- The function `CallChatGPT` never returns a text: `json.Unmarshal` cannot store into the
struct value held by the interface variable, so a body gives an error or, for `null`, a nil
interface on which `GetContent` panics. -/
theorem CallChatGPT_never_ok (config : Config) (prompt token : GoString) (http : HttpOutcome)
    (content : GoString) : (CallChatGPT config prompt token http).2 ≠ .ok content := by
  rcases http with _ | _ | _ | ⟨_ | _ | _⟩ <;>
    simp [CallChatGPT, parseLLMResponse, jsonUnmarshal]

theorem CallChatGPT_null (config : Config) (prompt token : GoString) :
    (CallChatGPT config prompt token (.body .null)).2 = .panic .nilDereference := rfl

theorem step_of_backend_error (config : Config) (msg : imap.Message) (o : Outcome)
    (emailBody : GoString) (hbody : processEmails.emailBody [] msg.Body = .ok emailBody)
    (hfail : (CallChatGPT config (ReplaceAll config.Llm.Prompt (lit "[CHAT-RECORD]") emailBody)
      config.Llm.Token o.http).2 = .error) :
    processEmails.step config msg o =
      ([Event.backendCall (config.Llm.Host ++ config.Llm.Api)
          (CallChatGPT.request config
            (ReplaceAll config.Llm.Prompt (lit "[CHAT-RECORD]") emailBody))
          config.Llm.Token], none) := by
  simp [processEmails.step, hbody, hfail, CallChatGPT_call]

theorem step_of_backend_panic (config : Config) (msg : imap.Message) (o : Outcome)
    (emailBody : GoString) (p : GoPanic)
    (hbody : processEmails.emailBody [] msg.Body = .ok emailBody)
    (hfail : (CallChatGPT config (ReplaceAll config.Llm.Prompt (lit "[CHAT-RECORD]") emailBody)
      config.Llm.Token o.http).2 = .panic p) :
    processEmails.step config msg o =
      ([Event.backendCall (config.Llm.Host ++ config.Llm.Api)
          (CallChatGPT.request config
            (ReplaceAll config.Llm.Prompt (lit "[CHAT-RECORD]") emailBody))
          config.Llm.Token], some (.panic p)) := by
  simp [processEmails.step, hbody, hfail, CallChatGPT_call]

theorem step_head_of_emailBody (config : Config) (msg : imap.Message) (o : Outcome)
    (emailBody : GoString) (h : processEmails.emailBody [] msg.Body = .ok emailBody) :
    (processEmails.step config msg o).1.head? =
      some (Event.backendCall (config.Llm.Host ++ config.Llm.Api)
        (CallChatGPT.request config
          (ReplaceAll config.Llm.Prompt (lit "[CHAT-RECORD]") emailBody))
        config.Llm.Token) := by
  cases hres : (CallChatGPT config (ReplaceAll config.Llm.Prompt (lit "[CHAT-RECORD]") emailBody)
      config.Llm.Token o.http).2 with
  | ok content => exact absurd hres (CallChatGPT_never_ok _ _ _ _ _)
  | error => rw [step_of_backend_error config msg o emailBody h hres]; rfl
  | panic p => rw [step_of_backend_panic config msg o emailBody p h hres]; rfl

theorem emailBody_append (start : GoString) (front back : List imap.Literal)
    (h : ∀ l ∈ front, l = .absent ∨ l = .unreadable) :
    processEmails.emailBody start (front ++ back) = processEmails.emailBody start back := by
  induction front with
  | nil => rfl
  | cons l rest ih =>
    have hrest := ih (fun x hx => h x (List.mem_cons_of_mem _ hx))
    rcases h l (List.mem_cons_self _ _) with hl | hl <;> subst hl <;>
      simpa [processEmails.emailBody] using hrest

/-- C2 (the code at the failing inputs): for every body without the marker "base64", the
index expression `strings.Split(..., "base64")[1]` is out of range: the extraction panics
instead of falling back to the raw body, and a message with such a section ends the loop
before the backend is called. -/
theorem sectionContent_panics_without_marker (config : Config) (msg : imap.Message)
    (o : Outcome) (bodyBytes : GoString)
    (hmarker : Contains bodyBytes (lit "base64") = false)
    (hbody : msg.Body = [.readable bodyBytes]) :
    processEmails.sectionContent bodyBytes = .error .indexOutOfRange
    ∧ processEmails.step config msg o = ([], some (.panic .indexOutOfRange)) := by
  have h1 : processEmails.sectionContent bodyBytes = .error .indexOutOfRange := by
    unfold processEmails.sectionContent
    rw [encodedContent_of_not_Contains bodyBytes hmarker]
  refine ⟨h1, ?_⟩
  simp [processEmails.step, hbody, processEmails.emailBody, h1]

/-- The body "hello" has no marker: the extraction panics. -/
theorem sectionContent_panics_without_marker_witness :
    processEmails.sectionContent (lit "hello") = .error .indexOutOfRange :=
  (sectionContent_panics_without_marker exampleConfig
    { exampleRawMessage with Body := [.readable (lit "hello")] }
    backendFails (lit "hello") (by decide) rfl).1

/-- C9 (the code at the failing inputs): for every message none of whose body sections
yields a readable stream (also with no body sections at all), whatever the backend answers,
the loop leaves `emailBody` empty and does not skip the message: it calls the backend, with
the prompt template in which the placeholder is replaced by the empty string. -/
theorem step_no_readable_section (config : Config) (msg : imap.Message) (o : Outcome)
    (hbody : ∀ l ∈ msg.Body, l = .absent ∨ l = .unreadable) :
    processEmails.emailBody [] msg.Body = .ok []
    ∧ (processEmails.step config msg o).1.head? =
        some (Event.backendCall (config.Llm.Host ++ config.Llm.Api)
          (CallChatGPT.request config (ReplaceAll config.Llm.Prompt (lit "[CHAT-RECORD]") []))
          config.Llm.Token) := by
  have h1 := emailBody_no_readable [] msg.Body hbody
  exact ⟨h1, step_head_of_emailBody config msg o [] h1⟩

/-- The witness of C9: a fetched message with a matching subject whose section has no
literal; the backend is called with the prompt "Summarise: ". -/
theorem step_no_readable_section_witness :
    (processEmails.step exampleConfig exampleEmptyMessage backendSendsObject).1.head?
      = some (Event.backendCall (lit "https://llm/v1/chat")
          (.chatgpt
            { Model := lit "gpt-4"
              Messages := [{ Role := lit "user", Content := lit "Summarise: " }]
              User := [] })
          (lit "t")) :=
  (step_no_readable_section exampleConfig exampleEmptyMessage backendSendsObject
    (by decide)).2.trans (by decide)

/-- A message whose backend call returns an error contributes the call and nothing else and
does not end the loop: the sink events and the ending of the run are those of the run
without the message. -/
theorem processEmails_error_isolated (config : Config)
    (front back : List (imap.Message × Outcome)) (msg : imap.Message) (o : Outcome)
    (emailBody : GoString) (hbody : processEmails.emailBody [] msg.Body = .ok emailBody)
    (hfail : (CallChatGPT config (ReplaceAll config.Llm.Prompt (lit "[CHAT-RECORD]") emailBody)
      config.Llm.Token o.http).2 = .error) :
    (processEmails.step config msg o).1.filter Event.isSink = []
    ∧ (processEmails.step config msg o).2 = none
    ∧ (processEmails config (front ++ (msg, o) :: back)).1.filter Event.isSink
        = (processEmails config (front ++ back)).1.filter Event.isSink
    ∧ (processEmails config (front ++ (msg, o) :: back)).2
        = (processEmails config (front ++ back)).2 := by
  have hstep := step_of_backend_error config msg o emailBody hbody hfail
  have hcons := processEmails_cons_continue config msg o back _ hstep
  refine ⟨by rw [hstep]; rfl, by rw [hstep], ?_, ?_⟩
  · rw [processEmails_append, processEmails_append, hcons]
    cases (processEmails config front).2 <;> simp [Event.isSink]
  · rw [processEmails_append, processEmails_append, hcons]
    cases (processEmails config front).2 <;> simp

/-- C10 (the code at the failing inputs): for every sequence of messages on the channel, a
message whose backend call fails with the response body `null` does not let the loop go on:
`parseLLMResponse` is left with a nil interface, `GetContent` panics, and the run ends at
this message; no message after it is processed. -/
theorem processEmails_null_response_panics (config : Config)
    (front back : List (imap.Message × Outcome)) (msg : imap.Message) (o : Outcome)
    (emailBody : GoString) (hbody : processEmails.emailBody [] msg.Body = .ok emailBody)
    (hnull : o.http = .body .null) :
    processEmails.step config msg o =
      ([Event.backendCall (config.Llm.Host ++ config.Llm.Api)
          (CallChatGPT.request config
            (ReplaceAll config.Llm.Prompt (lit "[CHAT-RECORD]") emailBody))
          config.Llm.Token], some (.panic .nilDereference))
    ∧ processEmails config ((msg, o) :: back) =
        ((processEmails.step config msg o).1, some (.panic .nilDereference))
    ∧ ((processEmails config front).2 = none →
        processEmails config (front ++ (msg, o) :: back) =
          ((processEmails config front).1 ++ (processEmails.step config msg o).1,
            some (.panic .nilDereference))) := by
  have hstep := step_of_backend_panic config msg o emailBody .nilDereference hbody
    (by rw [hnull]; rfl)
  have hcons := processEmails_cons_halt config msg o back _ _ hstep
  refine ⟨hstep, by rw [hcons, hstep], ?_⟩
  intro hfront
  rw [processEmails_append, hfront, hcons, hstep]

/-- The witness of C10: the backend answers the first of two messages with the body `null`;
the run ends in the panic after the one backend call, the second message is not
processed. -/
theorem processEmails_null_response_panics_witness :
    processEmails exampleConfig
        [(exampleMessage, backendSendsNull), (exampleRawMessage, backendFails)]
      = ((processEmails.step exampleConfig exampleMessage backendSendsNull).1,
          some (.panic .nilDereference)) :=
  (processEmails_null_response_panics exampleConfig []
    [(exampleRawMessage, backendFails)] exampleMessage backendSendsNull (lit "ABC")
    (by decide) rfl).2.1


/-! ## `utf8.DecodeRuneInString` -/

theorem IsSpace_RuneError : IsSpace RuneError = false := by decide

theorem leadInfo_spec {s0 : Byte} {sz lo hi : Nat} (h : leadInfo s0 = some (sz, lo, hi)) :
    (sz = 2 ∨ sz = 3 ∨ sz = 4) ∧ 0x80 ≤ lo ∧ hi ≤ 0xBF ∧ 0xC2 ≤ s0.val := by
  unfold leadInfo at h
  split_ifs at h <;> simp only [Option.some.injEq, Prod.mk.injEq, reduceCtorEq] at h <;>
    (obtain ⟨h1, h2, h3⟩ := h; subst h1 h2 h3; omega)

theorem DecodeRune_ascii (s0 : Byte) (t : GoString) (h : s0.val < 0x80) :
    DecodeRune (s0 :: t) = (s0.val, 1) := by
  simp [DecodeRune, h]

theorem DecodeRune_size_pos (s0 : Byte) (t : GoString) : 1 ≤ (DecodeRune (s0 :: t)).2 := by
  rcases hl : leadInfo s0 with _ | ⟨sz, lo, hi⟩
  · simp only [DecodeRune, hl]; split_ifs <;> simp
  · rcases t with _ | ⟨s1, _ | ⟨s2, _ | ⟨s3, t3⟩⟩⟩ <;>
      simp only [DecodeRune, hl, List.length_cons, List.length_nil] <;> split_ifs <;> simp

theorem DecodeRune_size_le (s : GoString) : (DecodeRune s).2 ≤ s.length := by
  rcases s with _ | ⟨s0, t⟩
  · simp [DecodeRune]
  rcases hl : leadInfo s0 with _ | ⟨sz, lo, hi⟩
  · simp only [DecodeRune, hl]; split_ifs <;> simp
  · have hs := leadInfo_spec hl
    rcases t with _ | ⟨s1, _ | ⟨s2, _ | ⟨s3, t3⟩⟩⟩ <;>
      simp only [DecodeRune, hl, List.length_cons, List.length_nil] <;> split_ifs <;>
      simp

theorem DecodeRune_single (b : Byte) : (DecodeRune [b]).2 = 1 := by
  have h1 := DecodeRune_size_pos b []
  have h2 := DecodeRune_size_le [b]
  simp only [List.length_cons, List.length_nil] at h2
  omega

theorem isCont_iff (x : Byte) : isCont x = true ↔ 0x80 ≤ x.val ∧ x.val ≤ 0xBF := by
  unfold isCont
  simp

theorem isCont_eq_false_iff (x : Byte) : isCont x = false ↔ x.val < 0x80 ∨ 0xBF < x.val := by
  rw [← Bool.not_eq_true, isCont_iff]
  omega

/-- A decoded code point other than `RuneError` does not depend on what follows it. -/
theorem DecodeRune_append_of_valid (t v : GoString) (h : (DecodeRune t).1 ≠ RuneError) :
    DecodeRune (t ++ v) = DecodeRune t := by
  rcases t with _ | ⟨s0, t⟩
  · simp [DecodeRune] at h
  rcases hl : leadInfo s0 with _ | ⟨sz, lo, hi⟩
  · revert h
    simp only [DecodeRune, hl, List.cons_append]
    split_ifs <;> simp
  · have hs := leadInfo_spec hl
    revert h
    rcases hs.1 with h2 | h2 | h2 <;> subst h2 <;>
    rcases t with _ | ⟨s1, _ | ⟨s2, _ | ⟨s3, t3⟩⟩⟩ <;>
      simp [DecodeRune, hl] <;>
      split_ifs <;> first | omega | simp

/-- A byte that is not a continuation byte, put after a non-empty string, does not change
the first code point. -/
theorem DecodeRune_append_noncont (t : GoString) (c : Byte) (v : GoString) (ht : t ≠ [])
    (hc : isCont c = false) : DecodeRune (t ++ c :: v) = DecodeRune t := by
  rcases t with _ | ⟨s0, t⟩
  · exact absurd rfl ht
  have hc2 := (isCont_eq_false_iff c).mp hc
  rcases hl : leadInfo s0 with _ | ⟨sz, lo, hi⟩
  · simp only [DecodeRune, hl, List.cons_append]
  · have hs := leadInfo_spec hl
    rcases hs.1 with h2 | h2 | h2 <;> subst h2 <;>
    rcases t with _ | ⟨s1, _ | ⟨s2, _ | ⟨s3, t3⟩⟩⟩ <;>
      simp [DecodeRune, hl, hc] <;>
      split_ifs <;> first | rfl | omega

/-- The bytes of a decoded code point other than `RuneError`: a single ASCII byte, or bytes
from `0x80` on. -/
theorem DecodeRune_valid_bytes (s : GoString) (h : (DecodeRune s).1 ≠ RuneError) :
    ∀ b ∈ s.take (DecodeRune s).2, 0x80 ≤ b.val ∨ DecodeRune s = (b.val, 1) := by
  rcases s with _ | ⟨s0, t⟩
  · simp [DecodeRune] at h
  by_cases h0 : s0.val < 0x80
  · rw [DecodeRune_ascii s0 t h0]
    intro b hb
    simp only [List.take_succ_cons, List.take_zero, List.mem_singleton] at hb
    subst hb
    exact Or.inr rfl
  rcases hl : leadInfo s0 with _ | ⟨sz, lo, hi⟩
  · revert h
    simp only [DecodeRune, hl, h0, if_false]
    intro h
    exact absurd rfl h
  · have hs := leadInfo_spec hl
    suffices hh : ∀ b ∈ (s0 :: t).take (DecodeRune (s0 :: t)).2, 0x80 ≤ b.val from
      fun b hb => Or.inl (hh b hb)
    revert h
    rcases hs.1 with h2 | h2 | h2 <;> subst h2 <;>
    rcases t with _ | ⟨s1, _ | ⟨s2, _ | ⟨s3, t3⟩⟩⟩ <;>
      simp [DecodeRune, hl, h0, isCont_iff] <;>
      split_ifs <;>
      first
        | (intro h; exact absurd rfl h)
        | (simp [isCont_iff] at *; omega)


/-! ## `utf8.DecodeLastRuneInString` -/

theorem lastRuneWindow_spec (rs : GoString) (h : rs ≠ []) :
    ∃ k, 1 ≤ k ∧ k ≤ rs.length ∧ lastRuneWindow rs = (rs.take k).reverse := by
  rcases rs with _ | ⟨b0, _ | ⟨b1, _ | ⟨b2, _ | ⟨b3, _ | ⟨b4, t⟩⟩⟩⟩⟩
  · exact absurd rfl h
  · exact ⟨1, by simp [lastRuneWindow]⟩
  all_goals
    simp only [lastRuneWindow]
    split_ifs
    all_goals first
      | exact ⟨2, by decide, by simp, rfl⟩
      | exact ⟨3, by decide, by simp, rfl⟩
      | exact ⟨4, by decide, by simp, rfl⟩
      | exact ⟨5, by decide, by simp, rfl⟩

theorem DecodeLastRune_ascii (x : GoString) (c : Byte) (h : c.val < 0x80) :
    DecodeLastRune (x ++ [c]) = (c.val, 1) := by
  simp [DecodeLastRune, h]

/-- What the backwards decoder returns is what the forward decoder reads at the same place:
the width agrees, and so does the code point unless it is `RuneError`. -/
theorem DecodeLastRune_spec (s : GoString) (h : s ≠ []) :
    1 ≤ (DecodeLastRune s).2 ∧ (DecodeLastRune s).2 ≤ s.length
    ∧ (DecodeRune (s.drop (s.length - (DecodeLastRune s).2))).2 = (DecodeLastRune s).2
    ∧ ((DecodeLastRune s).1 ≠ RuneError →
        DecodeRune (s.drop (s.length - (DecodeLastRune s).2)) = DecodeLastRune s) := by
  obtain ⟨x, c, rfl⟩ : ∃ x c, s = x ++ [c] := by
    rcases List.eq_nil_or_concat s with h1 | ⟨x, c, h1⟩
    · exact absurd h1 h
    · exact ⟨x, c, by rw [h1, List.concat_eq_append]⟩
  by_cases hc : c.val < 0x80
  · rw [DecodeLastRune_ascii x c hc]
    simp [DecodeRune_ascii c [] hc]
  · have hrev : (x ++ [c]).reverse = c :: x.reverse := by simp
    obtain ⟨k, hk1, hk2, hk3⟩ := lastRuneWindow_spec (c :: x.reverse) (by simp)
    have hw : lastRuneWindow (c :: x.reverse) = (x ++ [c]).drop ((x ++ [c]).length - k) := by
      rw [hk3, ← hrev, List.reverse_take, List.reverse_reverse, List.length_reverse]
    have hwl : (lastRuneWindow (c :: x.reverse)).length = k := by
      rw [hk3, List.length_reverse, List.length_take]
      omega
    have hlen : (x ++ [c]).length = x.length + 1 := by simp
    simp only [List.length_cons, List.length_reverse] at hk2
    by_cases hm : (DecodeRune (lastRuneWindow (c :: x.reverse))).2
        = (lastRuneWindow (c :: x.reverse)).length
    · have hd : DecodeLastRune (x ++ [c]) = DecodeRune (lastRuneWindow (c :: x.reverse)) := by
        simp only [DecodeLastRune, hrev, hc, if_false, hm, ne_eq, not_true_eq_false]
      rw [hd, hm, hwl, ← hw]
      refine ⟨hk1, by omega, by rw [hm, hwl], fun _ => rfl⟩
    · have hd : DecodeLastRune (x ++ [c]) = (RuneError, 1) := by
        simp only [DecodeLastRune, hrev, hc, if_false, ne_eq, hm, not_false_eq_true, if_true]
      rw [hd]
      refine ⟨le_refl _, by omega, ?_, fun h => absurd rfl h⟩
      simp only [hlen, Nat.add_sub_cancel, List.drop_left']
      exact DecodeRune_single c


/-! ## `strings.TrimLeftFunc(s, unicode.IsSpace)` -/

theorem trimLeftLoop_fuel (n m : Nat) (s : GoString) (hn : s.length ≤ n) (hm : s.length ≤ m) :
    trimLeftLoop n s = trimLeftLoop m s := by
  induction n generalizing m s with
  | zero =>
    have hs : s = [] := List.length_eq_zero.mp (Nat.le_zero.mp hn)
    subst hs
    cases m <;> rfl
  | succ k ih =>
    cases m with
    | zero =>
      have hs : s = [] := List.length_eq_zero.mp (Nat.le_zero.mp hm)
      subst hs
      rfl
    | succ j =>
      cases s with
      | nil => rfl
      | cons a t =>
        simp only [trimLeftLoop]
        split_ifs with hsp
        · have hpos := DecodeRune_size_pos a t
          simp only [List.length_cons] at hn hm
          apply ih
          · rw [List.length_drop, List.length_cons]; omega
          · rw [List.length_drop, List.length_cons]; omega
        · rfl

theorem TrimLeftSpace_nil : TrimLeftSpace [] = [] := rfl

theorem TrimLeftSpace_cons (a : Byte) (t : GoString) :
    TrimLeftSpace (a :: t) =
      if IsSpace (DecodeRune (a :: t)).1 then
        TrimLeftSpace ((a :: t).drop (DecodeRune (a :: t)).2)
      else a :: t := by
  unfold TrimLeftSpace
  simp only [List.length_cons, trimLeftLoop]
  split_ifs with hsp
  · have hpos := DecodeRune_size_pos a t
    apply trimLeftLoop_fuel
    · rw [List.length_drop, List.length_cons]; omega
    · exact le_refl _
  · rfl

theorem TrimLeftSpace_of_not_space (s : GoString) (h : IsSpace (DecodeRune s).1 = false) :
    TrimLeftSpace s = s := by
  cases s with
  | nil => rfl
  | cons a t => rw [TrimLeftSpace_cons, h]; rfl

/-- What is left after trimming on the left is empty or starts with a code point that is not
white space. -/
theorem TrimLeftSpace_spec (s : GoString) :
    TrimLeftSpace s <:+ s ∧
      (TrimLeftSpace s = [] ∨ IsSpace (DecodeRune (TrimLeftSpace s)).1 = false) := by
  generalize hn : s.length = n
  induction n using Nat.strong_induction_on generalizing s with
  | _ n ih =>
    cases s with
    | nil => exact ⟨List.suffix_refl _, Or.inl rfl⟩
    | cons a t =>
      rw [TrimLeftSpace_cons]
      split_ifs with hsp
      · have hpos := DecodeRune_size_pos a t
        have hlen : ((a :: t).drop (DecodeRune (a :: t)).2).length < n := by
          rw [List.length_drop, hn]
          have : 0 < n := by rw [← hn]; simp
          omega
        obtain ⟨h1, h2⟩ := ih _ hlen _ rfl
        exact ⟨h1.trans (List.drop_suffix _ _), h2⟩
      · exact ⟨List.suffix_refl _, Or.inr (by simpa using hsp)⟩

theorem TrimLeftSpace_idem (s : GoString) :
    TrimLeftSpace (TrimLeftSpace s) = TrimLeftSpace s := by
  rcases (TrimLeftSpace_spec s).2 with h | h
  · rw [h]; rfl
  · exact TrimLeftSpace_of_not_space _ h

/-- Trimming on the left stops at an ASCII byte that is not white space. -/
theorem TrimLeftSpace_append_ascii (u : GoString) (c : Byte) (v : GoString)
    (hc : c.val < 0x80) (hsp : IsSpace c.val = false) :
    TrimLeftSpace (u ++ c :: v) = TrimLeftSpace u ++ c :: v := by
  have hcc : isCont c = false := (isCont_eq_false_iff c).mpr (Or.inl hc)
  generalize hn : u.length = n
  induction n using Nat.strong_induction_on generalizing u with
  | _ n ih =>
    cases u with
    | nil =>
      rw [List.nil_append, TrimLeftSpace_nil, List.nil_append]
      apply TrimLeftSpace_of_not_space
      rw [DecodeRune_ascii c v hc]
      exact hsp
    | cons a t =>
      have hd : DecodeRune ((a :: t) ++ c :: v) = DecodeRune (a :: t) :=
        DecodeRune_append_noncont (a :: t) c v (by simp) hcc
      have hle := DecodeRune_size_le (a :: t)
      have hpos := DecodeRune_size_pos a t
      rw [TrimLeftSpace_cons a t]
      have e : (a :: t) ++ c :: v = a :: (t ++ c :: v) := rfl
      rw [e, TrimLeftSpace_cons a (t ++ c :: v), ← e, hd]
      split_ifs with h1
      · rw [List.drop_append_of_le_length hle]
        apply ih _ _ _ rfl
        rw [List.length_drop, hn]
        have : 0 < n := by rw [← hn]; simp
        omega
      · rfl


/-! ## `strings.TrimRightFunc(s, unicode.IsSpace)` -/

theorem DecodeRune_valid_head (s : GoString) (h : (DecodeRune s).1 ≠ RuneError) :
    ∃ c t, s = c :: t ∧ isCont c = false := by
  rcases s with _ | ⟨s0, t⟩
  · simp [DecodeRune] at h
  refine ⟨s0, t, rfl, ?_⟩
  rw [isCont_eq_false_iff]
  by_cases h0 : s0.val < 0x80
  · exact Or.inl h0
  · rcases hl : leadInfo s0 with _ | ⟨sz, lo, hi⟩
    · revert h
      simp only [DecodeRune, hl, h0, if_false]
      intro h
      exact absurd rfl h
    · have := (leadInfo_spec hl).2.2.2
      omega

theorem lastIndexNotSpace_fuel (n m : Nat) (s : GoString) (hn : s.length ≤ n)
    (hm : s.length ≤ m) : lastIndexNotSpace n s = lastIndexNotSpace m s := by
  induction n generalizing m s with
  | zero =>
    have hs : s = [] := List.length_eq_zero.mp (Nat.le_zero.mp hn)
    subst hs
    cases m <;> rfl
  | succ k ih =>
    cases m with
    | zero =>
      have hs : s = [] := List.length_eq_zero.mp (Nat.le_zero.mp hm)
      subst hs
      rfl
    | succ j =>
      cases s with
      | nil => rfl
      | cons a t =>
        simp only [lastIndexNotSpace]
        split_ifs with hsp
        · have hpos := (DecodeLastRune_spec (a :: t) (by simp)).1
          simp only [List.length_cons] at hn hm
          apply ih
          · rw [List.length_take, List.length_cons]; omega
          · rw [List.length_take, List.length_cons]; omega
        · rfl

theorem lastIndexNotSpace_unfold (s : GoString) (h : s ≠ []) :
    lastIndexNotSpace s.length s =
      if IsSpace (DecodeLastRune s).1 then
        lastIndexNotSpace (s.take (s.length - (DecodeLastRune s).2)).length
          (s.take (s.length - (DecodeLastRune s).2))
      else some (s.length - (DecodeLastRune s).2) := by
  cases s with
  | nil => exact absurd rfl h
  | cons a t =>
    simp only [List.length_cons, lastIndexNotSpace]
    split_ifs with hsp
    · have hpos := (DecodeLastRune_spec (a :: t) (by simp)).1
      apply lastIndexNotSpace_fuel
      · rw [List.length_take, List.length_cons]; omega
      · exact le_refl _
    · rfl

/-- Where `lastIndexFunc` stops: at a code point `w` whose width is that of the forward
decoder, followed by nothing or by a byte that is not a continuation byte. -/
theorem lastIndexNotSpace_spec (s : GoString) (j : Nat)
    (h : lastIndexNotSpace s.length s = some j) :
    ∃ a w T, s = a ++ w ++ T ∧ a.length = j ∧ w ≠ [] ∧ (DecodeRune w).2 = w.length
      ∧ IsSpace (DecodeLastRune (a ++ w)).1 = false
      ∧ (DecodeLastRune (a ++ w)).2 = w.length
      ∧ (T = [] ∨ ∃ c T1, T = c :: T1 ∧ isCont c = false) := by
  generalize hn : s.length = n
  induction n using Nat.strong_induction_on generalizing s with
  | _ n ih =>
    by_cases hs : s = []
    · subst hs
      simp [lastIndexNotSpace] at h
    obtain ⟨h1, h2, h3, h4⟩ := DecodeLastRune_spec s hs
    have hsplit : s = s.take (s.length - (DecodeLastRune s).2)
        ++ s.drop (s.length - (DecodeLastRune s).2) := (List.take_append_drop _ _).symm
    have hdl : (s.drop (s.length - (DecodeLastRune s).2)).length = (DecodeLastRune s).2 := by
      rw [List.length_drop]; omega
    rw [lastIndexNotSpace_unfold s hs] at h
    split_ifs at h with hsp
    · have hlt : (s.take (s.length - (DecodeLastRune s).2)).length < n := by
        rw [List.length_take]; omega
      obtain ⟨a, w, T, e1, e2, e3, e4, e6, e7, e8⟩ := ih _ hlt _ h rfl
      have hne : (DecodeLastRune s).1 ≠ RuneError := by
        intro hx
        rw [hx, IsSpace_RuneError] at hsp
        exact absurd hsp (by simp)
      obtain ⟨c, t, hc1, hc2⟩ := DecodeRune_valid_head _ (by rw [h4 hne]; exact hne)
      refine ⟨a, w, T ++ s.drop (s.length - (DecodeLastRune s).2), ?_, e2, e3, e4, e6,
        e7, ?_⟩
      · rw [← List.append_assoc, ← e1]
        exact hsplit
      · rcases e8 with e8 | ⟨c1, T1, e8, e9⟩
        · right
          exact ⟨c, t, by rw [e8, List.nil_append, hc1], hc2⟩
        · right
          exact ⟨c1, T1 ++ s.drop (s.length - (DecodeLastRune s).2), by rw [e8]; rfl, e9⟩
    · injection h with h
      refine ⟨s.take (s.length - (DecodeLastRune s).2),
        s.drop (s.length - (DecodeLastRune s).2), [], ?_, ?_, ?_, ?_, ?_, ?_, Or.inl rfl⟩
      · rw [List.append_nil]; exact hsplit
      · rw [List.length_take, ← h]; omega
      · intro hx
        rw [hx] at hdl
        simp only [List.length_nil] at hdl
        omega
      · rw [h3, hdl]
      · rw [← hsplit]; simpa using hsp
      · rw [← hsplit, hdl]

theorem TrimRightSpace_eval (a w T : GoString) (hw : w ≠ [])
    (hd : (DecodeRune w).2 = w.length)
    (hT : T = [] ∨ ∃ c T1, T = c :: T1 ∧ isCont c = false)
    (hli : lastIndexNotSpace (a ++ w ++ T).length (a ++ w ++ T) = some a.length) :
    TrimRightSpace (a ++ w ++ T) = a ++ w := by
  unfold TrimRightSpace
  rw [hli]
  simp only
  have hdrop : (a ++ w ++ T).drop a.length = w ++ T := by
    rw [List.append_assoc]
    exact List.drop_left' rfl
  have hwid : (DecodeRune (w ++ T)).2 = w.length := by
    rcases hT with hT | ⟨c, T1, hT, hc⟩
    · rw [hT, List.append_nil, hd]
    · rw [hT, DecodeRune_append_noncont w c T1 hw hc, hd]
  obtain ⟨b, w1, rfl⟩ : ∃ b w1, w = b :: w1 := by
    cases w with
    | nil => exact absurd rfl hw
    | cons b w1 => exact ⟨b, w1, rfl⟩
  have hget : (a ++ b :: w1 ++ T).getD a.length 0 = b := by
    rw [List.append_assoc, List.getD_eq_getElem?_getD, List.getElem?_append_right (le_refl _)]
    simp
  rw [hget, hdrop, hwid]
  split_ifs with h80
  · rw [List.append_assoc, List.take_append]
    simp
  · have h1 : (DecodeRune (b :: w1)).2 = 1 := by
      rw [DecodeRune_ascii b w1 (by omega)]
    rw [h1] at hd
    have hw1 : w1 = [] := by
      simp only [List.length_cons] at hd
      exact List.length_eq_zero.mp (by omega)
    subst hw1
    rw [List.append_assoc, List.take_append]
    simp


theorem TrimRightSpace_nil : TrimRightSpace [] = [] := rfl

/-- The recursion that `strings.TrimRightFunc` computes: drop the last code point while it is
white space. -/
theorem TrimRightSpace_unfold (s : GoString) (hs : s ≠ []) :
    TrimRightSpace s =
      if IsSpace (DecodeLastRune s).1 then
        TrimRightSpace (s.take (s.length - (DecodeLastRune s).2))
      else s := by
  obtain ⟨h1, h2, h3, h4⟩ := DecodeLastRune_spec s hs
  have hsplit : s = s.take (s.length - (DecodeLastRune s).2)
      ++ s.drop (s.length - (DecodeLastRune s).2) := (List.take_append_drop _ _).symm
  have hdl : (s.drop (s.length - (DecodeLastRune s).2)).length = (DecodeLastRune s).2 := by
    rw [List.length_drop]; omega
  have hwne : s.drop (s.length - (DecodeLastRune s).2) ≠ [] := by
    intro hx
    rw [hx] at hdl
    simp only [List.length_nil] at hdl
    omega
  have hli := lastIndexNotSpace_unfold s hs
  split_ifs with hsp
  · rw [if_pos hsp] at hli
    have hne : (DecodeLastRune s).1 ≠ RuneError := by
      intro hx
      rw [hx, IsSpace_RuneError] at hsp
      exact absurd hsp (by simp)
    obtain ⟨c, t, hc1, hc2⟩ := DecodeRune_valid_head _ (by rw [h4 hne]; exact hne)
    cases hj : lastIndexNotSpace (s.take (s.length - (DecodeLastRune s).2)).length
        (s.take (s.length - (DecodeLastRune s).2)) with
    | none =>
      rw [hj] at hli
      unfold TrimRightSpace
      rw [hli, hj]
    | some j =>
      rw [hj] at hli
      obtain ⟨a, w, T, e1, e2, e3, e4, _, _, e8⟩ := lastIndexNotSpace_spec _ j hj
      have hT : (T ++ s.drop (s.length - (DecodeLastRune s).2) = []
          ∨ ∃ c1 T1, T ++ s.drop (s.length - (DecodeLastRune s).2) = c1 :: T1
              ∧ isCont c1 = false) := by
        rcases e8 with e8 | ⟨c1, T1, e8, e9⟩
        · right
          exact ⟨c, t, by rw [e8, List.nil_append, hc1], hc2⟩
        · right
          exact ⟨c1, T1 ++ s.drop (s.length - (DecodeLastRune s).2), by rw [e8]; rfl, e9⟩
      have es : s = a ++ w ++ (T ++ s.drop (s.length - (DecodeLastRune s).2)) := by
        rw [← List.append_assoc, ← e1]
        exact hsplit
      have r1 := TrimRightSpace_eval a w T e3 e4 e8 (by rw [← e1, hj, e2])
      have r2 := TrimRightSpace_eval a w (T ++ s.drop (s.length - (DecodeLastRune s).2)) e3 e4
        hT (by rw [← es, hli, e2])
      rw [← es] at r2
      rw [← e1] at r1
      rw [r1, r2]
  · rw [if_neg hsp] at hli
    have r := TrimRightSpace_eval (s.take (s.length - (DecodeLastRune s).2))
      (s.drop (s.length - (DecodeLastRune s).2)) [] hwne (by rw [h3, hdl]) (Or.inl rfl)
      (by
        rw [List.append_nil, ← hsplit, hli, List.length_take]
        congr 1
        omega)
    rw [List.append_nil, ← hsplit] at r
    exact r

theorem TrimRightSpace_of_not_space (s : GoString) (h : IsSpace (DecodeLastRune s).1 = false) :
    TrimRightSpace s = s := by
  by_cases hs : s = []
  · subst hs; rfl
  · rw [TrimRightSpace_unfold s hs, h]; rfl

/-- What is left after trimming on the right is empty or ends with a code point that is not
white space. -/
theorem TrimRightSpace_spec (s : GoString) :
    TrimRightSpace s <+: s ∧
      (TrimRightSpace s = [] ∨ IsSpace (DecodeLastRune (TrimRightSpace s)).1 = false) := by
  generalize hn : s.length = n
  induction n using Nat.strong_induction_on generalizing s with
  | _ n ih =>
    by_cases hs : s = []
    · subst hs
      exact ⟨List.prefix_refl _, Or.inl rfl⟩
    · rw [TrimRightSpace_unfold s hs]
      obtain ⟨h1, h2, _, _⟩ := DecodeLastRune_spec s hs
      split_ifs with hsp
      · have hlen : (s.take (s.length - (DecodeLastRune s).2)).length < n := by
          rw [List.length_take]; omega
        obtain ⟨r1, r2⟩ := ih _ hlen _ rfl
        exact ⟨r1.trans (List.take_prefix _ _), r2⟩
      · exact ⟨List.prefix_refl _, Or.inr (by simpa using hsp)⟩

theorem TrimRightSpace_idem (s : GoString) :
    TrimRightSpace (TrimRightSpace s) = TrimRightSpace s := by
  rcases (TrimRightSpace_spec s).2 with h | h
  · rw [h]; rfl
  · exact TrimRightSpace_of_not_space _ h

/-- Trimming on the right stops at an ASCII byte that is not white space. -/
theorem TrimRightSpace_append_ascii (a : GoString) (c : Byte) (v : GoString)
    (hc : c.val < 0x80) (hsp : IsSpace c.val = false) :
    ∃ v1, v1 <+: v ∧ TrimRightSpace (a ++ c :: v) = a ++ c :: v1 := by
  generalize hn : v.length = n
  induction n using Nat.strong_induction_on generalizing v with
  | _ n ih =>
    have hs : a ++ c :: v ≠ [] := by simp
    rcases List.eq_nil_or_concat v with hv | ⟨v0, d, hv⟩
    · subst hv
      refine ⟨[], List.prefix_refl _, ?_⟩
      apply TrimRightSpace_of_not_space
      have e : a ++ [c] = a ++ [c] := rfl
      rw [DecodeLastRune_ascii a c hc]
      exact hsp
    · rw [TrimRightSpace_unfold _ hs]
      obtain ⟨h1, h2, h3, h4⟩ := DecodeLastRune_spec _ hs
      split_ifs with hspd
      · have hne : (DecodeLastRune (a ++ c :: v)).1 ≠ RuneError := by
          intro hx
          rw [hx, IsSpace_RuneError] at hspd
          exact absurd hspd (by simp)
        have hd := h4 hne
        have hlen : (a ++ c :: v).length = a.length + 1 + v.length := by simp; omega
        have hle : (DecodeLastRune (a ++ c :: v)).2 ≤ v.length := by
          by_contra hcon
          have hcon : v.length < (DecodeLastRune (a ++ c :: v)).2 := by omega
          have hbytes := DecodeRune_valid_bytes _ (by rw [hd]; exact hne)
          rw [hd] at hbytes
          have hmem : c ∈ ((a ++ c :: v).drop
              ((a ++ c :: v).length - (DecodeLastRune (a ++ c :: v)).2)).take
                (DecodeLastRune (a ++ c :: v)).2 := by
            rw [List.take_of_length_le (by rw [List.length_drop]; omega)]
            rw [List.drop_append_of_le_length (by omega)]
            exact List.mem_append_right _ (List.mem_cons_self _ _)
          rcases hbytes c hmem with hb | hb
          · omega
          · rw [hb] at hspd
            simp only at hspd
            rw [hsp] at hspd
            exact absurd hspd (by simp)
        have htake : (a ++ c :: v).take ((a ++ c :: v).length - (DecodeLastRune (a ++ c :: v)).2)
            = a ++ c :: v.take (v.length - (DecodeLastRune (a ++ c :: v)).2) := by
          have e : (a ++ c :: v).length - (DecodeLastRune (a ++ c :: v)).2 =
              a.length + ((v.length - (DecodeLastRune (a ++ c :: v)).2) + 1) := by omega
          rw [e, List.take_append, List.take_succ_cons]
        rw [htake]
        have hlt : (v.take (v.length - (DecodeLastRune (a ++ c :: v)).2)).length < n := by
          rw [List.length_take]; omega
        obtain ⟨v1, hv1, hv2⟩ := ih _ hlt _ rfl
        exact ⟨v1, hv1.trans (List.take_prefix _ _), hv2⟩
      · exact ⟨v, List.prefix_refl _, rfl⟩

/-- Trimming on the right keeps the left end trimmed. -/
theorem TrimRightSpace_keeps_left (y : GoString)
    (h : y = [] ∨ IsSpace (DecodeRune y).1 = false) :
    TrimRightSpace y = [] ∨ IsSpace (DecodeRune (TrimRightSpace y)).1 = false := by
  by_cases he : TrimRightSpace y = []
  · exact Or.inl he
  right
  obtain ⟨rest, hrest⟩ := (TrimRightSpace_spec y).1
  rcases h with h | h
  · rw [h] at he
    exact absurd rfl he
  · by_contra hcon
    have hsp : IsSpace (DecodeRune (TrimRightSpace y)).1 = true := by simpa using hcon
    have hne : (DecodeRune (TrimRightSpace y)).1 ≠ RuneError := by
      intro hx
      rw [hx, IsSpace_RuneError] at hsp
      exact absurd hsp (by simp)
    have := DecodeRune_append_of_valid (TrimRightSpace y) rest hne
    rw [hrest] at this
    rw [this, hsp] at h
    exact absurd h (by simp)

theorem TrimSpace_left_fixed (s : GoString) : TrimLeftSpace (TrimSpace s) = TrimSpace s := by
  unfold TrimSpace
  rcases TrimRightSpace_keeps_left _ (TrimLeftSpace_spec s).2 with h | h
  · rw [h]; rfl
  · exact TrimLeftSpace_of_not_space _ h

theorem TrimSpace_idem (s : GoString) : TrimSpace (TrimSpace s) = TrimSpace s := by
  have h := TrimSpace_left_fixed s
  unfold TrimSpace at h ⊢
  rw [h, TrimRightSpace_idem]

theorem TrimSpace_inside (s : GoString) : TrimSpace s <:+: s := by
  unfold TrimSpace
  exact ((TrimRightSpace_spec _).1.isInfix).trans ((TrimLeftSpace_spec s).1.isInfix)


/-! ## The cut at `--` and the white space around it -/

theorem lit_dashes : lit "--" = [45, 45] := by decide

theorem shorter_of_both_initial {sep A B : GoString} (h : sep <+: A ++ B)
    (hl : sep.length ≤ A.length) : sep <+: A :=
  List.prefix_of_prefix_length_le h (List.prefix_append A B) hl

/-- The first occurrence of a separator stays the first one when a part before it is cut
off and when what follows it changes. -/
theorem Index_inner (sep p a v v1 : GoString)
    (h : Index (p ++ (a ++ sep ++ v)) sep = some (p.length + a.length)) :
    Index (a ++ sep ++ v1) sep = some a.length := by
  obtain ⟨_, _, h3⟩ := (Index_eq_some_iff _ _ _).mp h
  rw [Index_eq_some_iff]
  refine ⟨?_, by simp, ?_⟩
  · rw [List.append_assoc, List.drop_left' rfl]
    exact List.prefix_append _ _
  · intro j hj hpre
    apply h3 (p.length + j) (by omega)
    have e1 : (p ++ (a ++ sep ++ v)).drop (p.length + j) = a.drop j ++ sep ++ v := by
      rw [← List.drop_drop, List.drop_left' rfl, List.append_assoc,
        List.drop_append_of_le_length (by omega), List.append_assoc]
    have e2 : (a ++ sep ++ v1).drop j = (a.drop j ++ sep) ++ v1 := by
      rw [List.append_assoc, List.drop_append_of_le_length (by omega), List.append_assoc]
    rw [e1]
    rw [e2] at hpre
    have := shorter_of_both_initial hpre (by simp)
    exact this.trans (List.prefix_append _ _)

theorem beforeFirst_of_absent {sep s : GoString} (h : ¬ sep <:+: s) :
    beforeFirst sep s = s := by
  unfold beforeFirst
  rw [(Index_eq_none_iff sep s).mpr h]

/-- Stripping white space before the cut at `--` changes nothing: the code strips before and
after the cut, the specification only after. -/
theorem TrimSpace_beforeFirst_TrimSpace (x : GoString) :
    TrimSpace (beforeFirst (lit "--") (TrimSpace x)) = TrimSpace (beforeFirst (lit "--") x) := by
  rw [lit_dashes]
  cases hI : Index x [45, 45] with
  | none =>
    have hni : ¬ [45, 45] <:+: x := (Index_eq_none_iff _ _).mp hI
    have hni2 : ¬ ([45, 45] : GoString) <:+: TrimSpace x :=
      fun h => hni (h.trans (TrimSpace_inside x))
    rw [beforeFirst_of_absent hni, beforeFirst_of_absent hni2, TrimSpace_idem]
  | some m =>
    have hx := Index_split hI
    have hb : beforeFirst [45, 45] x = x.take m := by
      unfold beforeFirst
      rw [hI]
    have hlen := Index_lt_length_add hI
    simp only [List.length_cons, List.length_nil] at hlen
    have hm : (x.take m).length = m := by
      rw [List.length_take]; omega
    obtain ⟨p, hp⟩ := (TrimLeftSpace_spec (x.take m)).1
    have hc : ((45 : Byte).val < 0x80) := by decide
    have hs : IsSpace (45 : Byte).val = false := by decide
    have hL : TrimLeftSpace x
        = TrimLeftSpace (x.take m) ++ 45 :: 45 :: x.drop (m + 2) := by
      have e : x = x.take m ++ 45 :: (45 :: x.drop (m + 2)) := by
        conv_lhs => rw [hx]
        simp
      conv_lhs => rw [e]
      exact TrimLeftSpace_append_ascii _ 45 _ hc hs
    obtain ⟨v1, _, hv1⟩ := TrimRightSpace_append_ascii (TrimLeftSpace (x.take m) ++ [45]) 45
      (x.drop (m + 2)) hc hs
    have hT : TrimSpace x = TrimLeftSpace (x.take m) ++ [45, 45] ++ v1 := by
      unfold TrimSpace
      rw [hL]
      have e : TrimLeftSpace (x.take m) ++ 45 :: 45 :: x.drop (m + 2)
          = (TrimLeftSpace (x.take m) ++ [45]) ++ 45 :: x.drop (m + 2) := by simp
      rw [e, hv1]
      simp
    have hI2 : Index (TrimLeftSpace (x.take m) ++ [45, 45] ++ v1) [45, 45]
        = some (TrimLeftSpace (x.take m)).length := by
      apply Index_inner [45, 45] p (TrimLeftSpace (x.take m)) (x.drop (m + 2)) v1
      have e : p ++ (TrimLeftSpace (x.take m) ++ [45, 45] ++ x.drop (m + 2)) = x := by
        conv_rhs => rw [hx, ← hp]
        simp
      rw [e, hI]
      congr 1
      rw [← List.length_append, hp, hm]
    have hb2 : beforeFirst [45, 45] (TrimSpace x) = TrimLeftSpace (x.take m) := by
      unfold beforeFirst
      rw [hT, hI2, List.append_assoc]
      exact List.take_left' rfl
    rw [hb, hb2]
    unfold TrimSpace
    rw [TrimLeftSpace_idem]

/-! ## The text handed to the decoder -/

theorem encodedContent_eq (bodyBytes : GoString)
    (h : Contains bodyBytes (lit "base64") = true) :
    processEmails.encodedContent bodyBytes =
      .ok (removeNewlines (TrimSpace (beforeFirst (lit "--")
        (beforeFirst (lit "base64") (afterFirst (lit "base64") bodyBytes))))) := by
  unfold processEmails.encodedContent
  rw [Split_getElem_one lit_base64_ne_nil, h]
  simp only [if_true]
  rw [Split_getElem_zero lit_dashes_ne_nil]
  simp only
  rw [ReplaceAll_newlines, TrimSpace_beforeFirst_TrimSpace]

/-- C4, as stated, fails: when a second "base64" stands before the first "--", the program
decodes only what stands before it ("QQ=="), the reference definition of the specification
keeps it ("QQ==base64"). -/
theorem encodedContent_differs_from_spec :
    Contains (lit "base64QQ==base64--") (lit "base64") = true
    ∧ processEmails.encodedContent (lit "base64QQ==base64--") = .ok (lit "QQ==")
    ∧ specEncodedContent (lit "base64QQ==base64--") = lit "QQ==base64" := by
  decide

/-- C4, amended: for every message body containing the marker "base64", the text that
`processEmails` tries to decode is: everything after the first occurrence of "base64" and
before the next occurrence of "base64" (if there is one), of that everything before its
first occurrence of "--", leading and trailing white space stripped, every LF and CR
deleted.  When the remainder after the first "base64" holds no further "base64", this is
the reference definition of the specification. -/
theorem encodedContent_amended (bodyBytes : GoString)
    (hmarker : Contains bodyBytes (lit "base64") = true) :
    processEmails.encodedContent bodyBytes = .ok (amendedEncodedContent bodyBytes)
    ∧ (Contains (afterFirst (lit "base64") bodyBytes) (lit "base64") = false →
        processEmails.encodedContent bodyBytes = .ok (specEncodedContent bodyBytes)) := by
  refine ⟨encodedContent_eq bodyBytes hmarker, ?_⟩
  intro h2
  rw [encodedContent_eq bodyBytes hmarker]
  unfold specEncodedContent
  rw [beforeFirst_of_absent ((Contains_eq_false_iff _ _).mp h2)]

/-- The witness of the amended C4: the body of the counterexample. -/
theorem encodedContent_amended_witness :
    processEmails.encodedContent (lit "base64QQ==base64--")
      = .ok (amendedEncodedContent (lit "base64QQ==base64--")) :=
  (encodedContent_amended (lit "base64QQ==base64--") (by decide)).1


/-! ## `base64.StdEncoding` -/

set_option maxRecDepth 100000 in
theorem decodeMap_encodeStd : ∀ i : Fin 64, decodeMap (encodeStd.getD i.val 0) = i.val := by
  decide

theorem decodeMap_encodeChar (v : Nat) : decodeMap (encodeChar v) = v % 64 :=
  decodeMap_encodeStd ⟨v % 64, Nat.mod_lt _ (by decide)⟩

theorem decodeMap_encodeChar_ne (v : Nat) : decodeMap (encodeChar v) ≠ 0xFF := by
  rw [decodeMap_encodeChar]
  have := Nat.mod_lt v (show 0 < 64 by decide)
  omega

theorem decodeMap_padChar : decodeMap padChar = 0xFF := by decide

set_option maxRecDepth 100000 in
theorem decodeMap_ne_iff : ∀ b : Byte, decodeMap b ≠ 0xFF ↔ isStdAlphabet b = true := by
  decide


theorem byte_ofNat_eq (a : Byte) (n : Nat) (h : n % 256 = a.val) : (Fin.ofNat n : Byte) = a := by
  apply Fin.ext
  simpa [Fin.ofNat] using h

theorem padChar_not_newline : ¬ (padChar.val = 10 ∨ padChar.val = 13) := by decide

theorem skipNewlines_pad (rest : GoString) : skipNewlines (padChar :: rest) = padChar :: rest := by
  simp [skipNewlines, padChar_not_newline]

/-- A full quantum of four alphabet characters gives three bytes. -/
theorem decodeLoop_quantum (c0 c1 c2 c3 : Byte) (rest : GoString)
    (h0 : decodeMap c0 ≠ 0xFF) (h1 : decodeMap c1 ≠ 0xFF) (h2 : decodeMap c2 ≠ 0xFF)
    (h3 : decodeMap c3 ≠ 0xFF) :
    decodeLoop (c0 :: c1 :: c2 :: c3 :: rest) [] =
      (decodeLoop rest []).map fun tl =>
        Fin.ofNat (quantumVal (decodeMap c0) (decodeMap c1) (decodeMap c2) (decodeMap c3) / 65536)
          :: Fin.ofNat
            (quantumVal (decodeMap c0) (decodeMap c1) (decodeMap c2) (decodeMap c3) / 256)
          :: Fin.ofNat (quantumVal (decodeMap c0) (decodeMap c1) (decodeMap c2) (decodeMap c3))
          :: tl := by
  simp [decodeLoop, h0, h1, h2, h3]

/-- Decoding undoes encoding: `DecodeString(EncodeToString(p)) = p`, without error. -/
theorem DecodeString_EncodeToString (p : List Byte) :
    DecodeString (EncodeToString p) = some p := by
  unfold DecodeString
  generalize hn : p.length = n
  induction n using Nat.strong_induction_on generalizing p with
  | _ n ih =>
    rcases p with _ | ⟨a, _ | ⟨b, _ | ⟨c, rest⟩⟩⟩
    · rfl
    · simp only [EncodeToString, decodeLoop, decodeMap_encodeChar_ne, ne_eq, not_false_eq_true,
        if_true, decodeMap_padChar, not_true_eq_false, if_false, padChar_not_newline,
        List.nil_append, List.cons_append, skipNewlines_pad, skipNewlines]
      simp only [decodeMap_encodeChar, quantumVal, Option.some.injEq, List.cons.injEq, and_true]
      apply byte_ofNat_eq
      omega
    · simp only [EncodeToString, decodeLoop, decodeMap_encodeChar_ne, ne_eq, not_false_eq_true,
        if_true, decodeMap_padChar, not_true_eq_false, if_false, padChar_not_newline,
        List.nil_append, List.cons_append, skipNewlines_pad, skipNewlines]
      simp only [decodeMap_encodeChar, quantumVal, Option.some.injEq, List.cons.injEq, and_true]
      refine ⟨?_, ?_⟩ <;> apply byte_ofNat_eq <;> omega
    · simp only [EncodeToString]
      rw [decodeLoop_quantum _ _ _ _ _ (decodeMap_encodeChar_ne _) (decodeMap_encodeChar_ne _)
        (decodeMap_encodeChar_ne _) (decodeMap_encodeChar_ne _)]
      have hlt : rest.length < n := by
        rw [← hn]; simp only [List.length_cons]; omega
      rw [ih _ hlt rest rfl]
      simp only [decodeMap_encodeChar, quantumVal, Option.map_some', Option.some.injEq,
        List.cons.injEq, and_true]
      refine ⟨?_, ?_, ?_⟩ <;> apply byte_ofNat_eq <;> omega


theorem skipNewlines_of_none (t : GoString) (h : ∀ b ∈ t, ¬ (b.val = 10 ∨ b.val = 13)) :
    skipNewlines t = t := by
  cases t with
  | nil => rfl
  | cons c rest => simp [skipNewlines, h c (List.mem_cons_self _ _)]

theorem decodeLoop_reject (c : Byte) (rest : GoString) (dbuf : List Nat)
    (h1 : decodeMap c = 0xFF) (h2 : ¬ (c.val = 10 ∨ c.val = 13)) (h3 : c ≠ padChar) :
    decodeLoop (c :: rest) dbuf = none := by
  simp [decodeLoop, decodeMap_padChar, padChar_not_newline, h1, h2, h3]

theorem isStdAlphabet_of_ne {c : Byte} (h : decodeMap c ≠ 0xFF) : isStdAlphabet c = true :=
  (decodeMap_ne_iff c).mp h

theorem isStdAlphabet_padChar : isStdAlphabet padChar = false := by decide

/-- A text without line feeds and carriage returns that `DecodeString` accepts is valid
padded base64 over the standard alphabet. -/
theorem validStdBase64_of_DecodeString (s : GoString)
    (hnl : ∀ b ∈ s, ¬ (b.val = 10 ∨ b.val = 13)) (out : List Byte)
    (h : DecodeString s = some out) : validStdBase64 s = true := by
  unfold DecodeString at h
  generalize hn : s.length = n
  induction n using Nat.strong_induction_on generalizing s out with
  | _ n ih =>
    rcases s with _ | ⟨c0, t0⟩
    · rfl
    have n0 := hnl c0 (by simp)
    by_cases a0 : decodeMap c0 = 0xFF
    · exfalso
      by_cases p0 : c0 = padChar
      · simp [decodeLoop, decodeMap_padChar, padChar_not_newline, a0, n0, p0] at h
      · rw [decodeLoop_reject c0 t0 [] a0 n0 p0] at h
        exact absurd h (by simp)
    rcases t0 with _ | ⟨c1, t1⟩
    · simp [decodeLoop, decodeMap_padChar, padChar_not_newline, a0] at h
    have n1 := hnl c1 (by simp)
    by_cases a1 : decodeMap c1 = 0xFF
    · exfalso
      by_cases p1 : c1 = padChar
      · simp [decodeLoop, decodeMap_padChar, padChar_not_newline, a0, a1, n1, p1] at h
      · simp [decodeLoop, decodeMap_padChar, padChar_not_newline, a0, a1, n1, p1] at h
    rcases t1 with _ | ⟨c2, t2⟩
    · simp [decodeLoop, decodeMap_padChar, padChar_not_newline, a0, a1] at h
    have n2 := hnl c2 (by simp)
    have hnl2 : ∀ b ∈ t2, ¬ (b.val = 10 ∨ b.val = 13) := fun b hb => hnl b (by simp [hb])
    by_cases a2 : decodeMap c2 = 0xFF
    · by_cases p2 : c2 = padChar
      · rcases t2 with _ | ⟨c3, t3⟩
        · simp [decodeLoop, decodeMap_padChar, padChar_not_newline, a0, a1, a2, n2, p2, skipNewlines] at h
        have n3 := hnl c3 (by simp)
        have hnl3 : ∀ b ∈ t3, ¬ (b.val = 10 ∨ b.val = 13) := fun b hb => hnl b (by simp [hb])
        by_cases p3 : c3 = padChar
        · rcases t3 with _ | ⟨c4, t4⟩
          · subst p2 p3
            simp [validStdBase64, isStdAlphabet_of_ne a0, isStdAlphabet_of_ne a1]
          · exfalso
            have n4 := hnl c4 (by simp)
            simp [decodeLoop, decodeMap_padChar, padChar_not_newline, a0, a1, a2, n2, p2, skipNewlines, n3, p3, n4] at h
        · exfalso
          simp [decodeLoop, decodeMap_padChar, padChar_not_newline, a0, a1, a2, n2, p2, skipNewlines, n3, p3] at h
      · exfalso
        simp [decodeLoop, decodeMap_padChar, padChar_not_newline, a0, a1, a2, n2, p2] at h
    rcases t2 with _ | ⟨c3, t3⟩
    · simp [decodeLoop, decodeMap_padChar, padChar_not_newline, a0, a1, a2] at h
    have n3 := hnl c3 (by simp)
    have hnl3 : ∀ b ∈ t3, ¬ (b.val = 10 ∨ b.val = 13) := fun b hb => hnl b (by simp [hb])
    by_cases a3 : decodeMap c3 = 0xFF
    · by_cases p3 : c3 = padChar
      · rcases t3 with _ | ⟨c4, t4⟩
        · subst p3
          simp [validStdBase64, isStdAlphabet_of_ne a0, isStdAlphabet_of_ne a1,
            isStdAlphabet_of_ne a2]
        · exfalso
          have n4 := hnl c4 (by simp)
          simp [decodeLoop, decodeMap_padChar, padChar_not_newline, a0, a1, a2, a3, n3, p3, skipNewlines, n4] at h
      · exfalso
        simp [decodeLoop, decodeMap_padChar, padChar_not_newline, a0, a1, a2, a3, n3, p3] at h
    · rw [decodeLoop_quantum c0 c1 c2 c3 t3 a0 a1 a2 a3] at h
      cases hrest : decodeLoop t3 [] with
      | none => simp [hrest] at h
      | some tl =>
        have hlt : t3.length < n := by
          rw [← hn]; simp only [List.length_cons]; omega
        have hv := ih _ hlt t3 hnl3 tl hrest rfl
        rcases t3 with _ | ⟨c4, t4⟩
        · simp [validStdBase64, isStdAlphabet_of_ne a0, isStdAlphabet_of_ne a1,
            isStdAlphabet_of_ne a2, isStdAlphabet_of_ne a3]
        · simp [validStdBase64, isStdAlphabet_of_ne a0, isStdAlphabet_of_ne a1,
            isStdAlphabet_of_ne a2, isStdAlphabet_of_ne a3, hv]

theorem removeNewlines_no_newline (s : GoString) :
    ∀ b ∈ removeNewlines s, ¬ (b.val = 10 ∨ b.val = 13) := by
  intro b hb
  unfold removeNewlines at hb
  have := (List.mem_filter.mp hb).2
  simp only [ne_eq, decide_eq_true_eq] at this
  omega

/-- Text that is not valid padded base64, with its line feeds and carriage returns removed,
is refused by `DecodeString`. -/
theorem DecodeString_removeNewlines_of_invalid (s : GoString)
    (h : validStdBase64 (removeNewlines s) = false) :
    DecodeString (removeNewlines s) = none := by
  cases hd : DecodeString (removeNewlines s) with
  | none => rfl
  | some out =>
    have := validStdBase64_of_DecodeString _ (removeNewlines_no_newline s) out hd
    rw [this] at h
    exact absurd h (by simp)


/-! ## White space at the ends of a string -/

theorem DecodeRune_size_le_four (s : GoString) : (DecodeRune s).2 ≤ 4 := by
  rcases s with _ | ⟨s0, t⟩
  · simp [DecodeRune]
  rcases hl : leadInfo s0 with _ | ⟨sz, lo, hi⟩
  · simp only [DecodeRune, hl]; split_ifs <;> simp
  · rcases t with _ | ⟨s1, _ | ⟨s2, _ | ⟨s3, t3⟩⟩⟩ <;>
      simp only [DecodeRune, hl, List.length_cons, List.length_nil] <;> split_ifs <;> simp

theorem DecodeRune_shape_one (s0 : Byte) (hr : (DecodeRune [s0]).1 ≠ RuneError) :
    s0.val < 0x80 := by
  by_contra h0
  rcases hl : leadInfo s0 with _ | ⟨sz, lo, hi⟩
  · simp [DecodeRune, hl, h0] at hr
  · have hs := leadInfo_spec hl
    revert hr
    simp only [DecodeRune, hl, h0, if_false, List.length_nil]
    split_ifs
    · intro h; exact absurd rfl h
    · omega

theorem DecodeRune_shape_multi (s0 : Byte) (t : GoString) (ht : t ≠ [])
    (hr : (DecodeRune (s0 :: t)).1 ≠ RuneError)
    (hw : (DecodeRune (s0 :: t)).2 = (s0 :: t).length) :
    isCont s0 = false ∧ ∀ b ∈ t, isCont b = true := by
  by_cases h0 : s0.val < 0x80
  · rw [DecodeRune_ascii s0 t h0] at hw
    simp only [List.length_cons] at hw
    exact absurd (List.length_eq_zero.mp (by omega)) ht
  rcases hl : leadInfo s0 with _ | ⟨sz, lo, hi⟩
  · revert hr
    simp only [DecodeRune, hl, h0, if_false]
    intro h
    exact absurd rfl h
  have hs := leadInfo_spec hl
  refine ⟨by rw [isCont_eq_false_iff]; omega, ?_⟩
  revert hr hw
  rcases hs.1 with h2 | h2 | h2 <;> subst h2 <;>
  rcases t with _ | ⟨s1, _ | ⟨s2, _ | ⟨s3, _ | ⟨s4, t4⟩⟩⟩⟩ <;>
    simp [DecodeRune, hl, h0] <;>
    split_ifs <;>
    first
      | (intro h; exact absurd rfl h)
      | (intro _ h; omega)
      | (intro _; simp_all [isCont_iff]; omega)

/-- A complete valid code point at the end of a string is what the backwards decoder
returns. -/
theorem DecodeLastRune_append_valid (x w : GoString) (hr : (DecodeRune w).1 ≠ RuneError)
    (hw : (DecodeRune w).2 = w.length) : DecodeLastRune (x ++ w) = DecodeRune w := by
  have h4 := DecodeRune_size_le_four w
  rw [hw] at h4
  rcases w with _ | ⟨s0, t⟩
  · simp [DecodeRune] at hr
  rcases t with _ | ⟨s1, t⟩
  · have h0 := DecodeRune_shape_one s0 hr
    rw [DecodeLastRune_ascii x s0 h0, DecodeRune_ascii s0 [] h0]
  obtain ⟨hc0, hct⟩ := DecodeRune_shape_multi s0 (s1 :: t) (by simp) hr hw
  rcases t with _ | ⟨s2, _ | ⟨s3, _ | ⟨s4, t4⟩⟩⟩
  · have hc1 := hct s1 (by simp)
    have h1 : ¬ s1.val < 0x80 := by
      rw [isCont_iff] at hc1; omega
    simp [DecodeLastRune, lastRuneWindow, RuneStart, hc0, h1, hw]
  · have hc1 := hct s1 (by simp)
    have hc2 := hct s2 (by simp)
    have h2 : ¬ s2.val < 0x80 := by
      rw [isCont_iff] at hc2; omega
    simp [DecodeLastRune, lastRuneWindow, RuneStart, hc0, hc1, h2, hw]
  · have hc1 := hct s1 (by simp)
    have hc2 := hct s2 (by simp)
    have hc3 := hct s3 (by simp)
    have h3 : ¬ s3.val < 0x80 := by
      rw [isCont_iff] at hc3; omega
    simp [DecodeLastRune, lastRuneWindow, RuneStart, hc0, hc1, hc2, h3, hw]
  · simp only [List.length_cons] at h4
    omega


theorem IsSpace_cases (r : Nat) (h : IsSpace r = true) :
    r ∈ [0x09, 0x0A, 0x0B, 0x0C, 0x0D, 0x20, 0x85, 0xA0, 0x1680, 0x2000, 0x2001, 0x2002,
      0x2003, 0x2004, 0x2005, 0x2006, 0x2007, 0x2008, 0x2009, 0x200A, 0x2028, 0x2029, 0x202F,
      0x205F, 0x3000] := by
  unfold IsSpace at h
  split_ifs at h
  · simp only [Bool.or_eq_true, decide_eq_true_eq] at h
    simp only [List.mem_cons, List.mem_singleton, List.not_mem_nil]
    omega
  · simp only [Bool.or_eq_true, decide_eq_true_eq, Bool.and_eq_true] at h
    simp only [List.mem_cons, List.mem_singleton, List.not_mem_nil]
    omega

set_option maxRecDepth 100000 in
theorem spaceRune_facts :
    ∀ r ∈ [0x09, 0x0A, 0x0B, 0x0C, 0x0D, 0x20, 0x85, 0xA0, 0x1680, 0x2000, 0x2001, 0x2002,
      0x2003, 0x2004, 0x2005, 0x2006, 0x2007, 0x2008, 0x2009, 0x200A, 0x2028, 0x2029, 0x202F,
      0x205F, 0x3000],
      DecodeRune (encodeRune r) = (r, (encodeRune r).length) ∧ r ≠ RuneError
      ∧ encodeRune r ≠ []
      ∧ ∀ b ∈ encodeRune r, 0x80 ≤ b.val ∨ IsSpace b.val = true := by
  decide

/-- The encoding of a white-space code point decodes to it, whatever follows. -/
theorem DecodeRune_space_append (r : Nat) (y : GoString) (h : IsSpace r = true) :
    DecodeRune (encodeRune r ++ y) = (r, (encodeRune r).length) := by
  obtain ⟨h1, h2, _, _⟩ := spaceRune_facts r (IsSpace_cases r h)
  rw [DecodeRune_append_of_valid _ _ (by rw [h1]; exact h2), h1]

theorem DecodeLastRune_space_append (r : Nat) (x : GoString) (h : IsSpace r = true) :
    DecodeLastRune (x ++ encodeRune r) = (r, (encodeRune r).length) := by
  obtain ⟨h1, h2, _, _⟩ := spaceRune_facts r (IsSpace_cases r h)
  rw [DecodeLastRune_append_valid x _ (by rw [h1]; exact h2) (by rw [h1]), h1]

theorem encodeRune_ne_nil (r : Nat) (h : IsSpace r = true) : encodeRune r ≠ [] :=
  (spaceRune_facts r (IsSpace_cases r h)).2.2.1

theorem encodeRunes_nil : encodeRunes [] = [] := rfl

theorem encodeRunes_cons (r : Nat) (rs : List Nat) :
    encodeRunes (r :: rs) = encodeRune r ++ encodeRunes rs := by
  simp [encodeRunes]

theorem encodeRunes_append (a b : List Nat) :
    encodeRunes (a ++ b) = encodeRunes a ++ encodeRunes b := by
  simp [encodeRunes]

/-- Leading white space is trimmed. -/
theorem TrimLeftSpace_spaces (sp : List Nat) (y : GoString)
    (h : ∀ r ∈ sp, IsSpace r = true) :
    TrimLeftSpace (encodeRunes sp ++ y) = TrimLeftSpace y := by
  induction sp with
  | nil => rfl
  | cons r rs ih =>
    have hr := h r (List.mem_cons_self _ _)
    have hne := encodeRune_ne_nil r hr
    rw [encodeRunes_cons, List.append_assoc]
    obtain ⟨a, t, hat⟩ : ∃ a t, encodeRune r ++ (encodeRunes rs ++ y) = a :: t := by
      cases he : encodeRune r with
      | nil => exact absurd he hne
      | cons a t => exact ⟨a, t ++ (encodeRunes rs ++ y), rfl⟩
    have hd := DecodeRune_space_append r (encodeRunes rs ++ y) hr
    rw [hat] at hd ⊢
    rw [TrimLeftSpace_cons, hd]
    simp only [hr, if_true]
    rw [← hat, List.drop_left' rfl]
    exact ih (fun x hx => h x (List.mem_cons_of_mem _ hx))

/-- Trailing white space is trimmed. -/
theorem TrimRightSpace_spaces (x : GoString) (sp : List Nat)
    (h : ∀ r ∈ sp, IsSpace r = true) :
    TrimRightSpace (x ++ encodeRunes sp) = TrimRightSpace x := by
  induction sp using List.reverseRecOn with
  | nil => simp [encodeRunes]
  | append_singleton rs r ih =>
    have hr := h r (by simp)
    have hne := encodeRune_ne_nil r hr
    have e : x ++ encodeRunes (rs ++ [r]) = (x ++ encodeRunes rs) ++ encodeRune r := by
      rw [encodeRunes_append, encodeRunes_cons, encodeRunes_nil, List.append_nil,
        List.append_assoc]
    rw [e]
    have hd := DecodeLastRune_space_append r (x ++ encodeRunes rs) hr
    rw [TrimRightSpace_unfold _ (by simp [hne]), hd]
    simp only [hr, if_true]
    rw [List.length_append, Nat.add_sub_cancel, List.take_left' rfl]
    exact ih (fun y hy => h y (by simp [hy]))


/-! ## A base64 text laid out with white space and line breaks -/

theorem dropWhile_head_not {p : Byte → Bool} {l : GoString} {c : Byte} {t : GoString}
    (h : l.dropWhile p = c :: t) : p c = false := by
  induction l with
  | nil => simp at h
  | cons a l ih =>
    by_cases ha : p a = true
    · rw [List.dropWhile_cons_of_pos ha] at h
      exact ih h
    · rw [List.dropWhile_cons_of_neg ha] at h
      injection h with h1 _
      rw [← h1]
      simpa using ha

theorem encodeRune_ascii (b : Byte) (h : b.val < 0x80) : encodeRune b.val = [b] := by
  unfold encodeRune
  rw [if_pos h]
  congr 1
  apply Fin.ext
  simp only [Fin.ofNat, Fin.val_mk]
  omega

/-- A run of line feeds and carriage returns is a run of white-space code points. -/
theorem newline_run (l : GoString) (h : ∀ b ∈ l, b.val = 10 ∨ b.val = 13) :
    l = encodeRunes (l.map fun b => b.val) ∧ ∀ r ∈ l.map (fun b => b.val), IsSpace r = true := by
  induction l with
  | nil => exact ⟨rfl, by simp⟩
  | cons a l ih =>
    obtain ⟨ih1, ih2⟩ := ih (fun b hb => h b (List.mem_cons_of_mem _ hb))
    have ha := h a (List.mem_cons_self _ _)
    constructor
    · rw [List.map_cons, encodeRunes_cons, encodeRune_ascii a (by omega), ← ih1]
      rfl
    · intro r hr
      rw [List.map_cons, List.mem_cons] at hr
      rcases hr with hr | hr
      · subst hr
        rcases ha with ha | ha <;> rw [ha] <;> decide
      · exact ih2 r hr

theorem removeNewlines_append (a b : GoString) :
    removeNewlines (a ++ b) = removeNewlines a ++ removeNewlines b := by
  simp [removeNewlines]

theorem removeNewlines_of_newlines (l : GoString) (h : ∀ b ∈ l, b.val = 10 ∨ b.val = 13) :
    removeNewlines l = [] := by
  unfold removeNewlines
  rw [List.filter_eq_nil_iff]
  intro b hb
  have := h b hb
  simp only [ne_eq, decide_eq_true_eq]
  omega

theorem mem_removeNewlines {b : Byte} {s : GoString} (hb : b ∈ s)
    (hn : ¬ (b.val = 10 ∨ b.val = 13)) : b ∈ removeNewlines s := by
  unfold removeNewlines
  rw [List.mem_filter]
  refine ⟨hb, ?_⟩
  simp only [ne_eq, decide_eq_true_eq]
  omega

/-- Stripping white space from a text that is laid out with white space around it and line
breaks inside it, and then deleting the line breaks, leaves the text without the line
breaks. -/
theorem removeNewlines_TrimSpace_layout (sp1 sp2 : List Nat) (mid : GoString)
    (h1 : ∀ r ∈ sp1, IsSpace r = true) (h2 : ∀ r ∈ sp2, IsSpace r = true)
    (hmid : ∀ b ∈ removeNewlines mid, b.val < 0x80 ∧ IsSpace b.val = false) :
    removeNewlines (TrimSpace (encodeRunes sp1 ++ mid ++ encodeRunes sp2))
      = removeNewlines mid := by
  have hsplit1 := List.takeWhile_append_dropWhile (fun b : Byte => decide (b.val = 10 ∨ b.val = 13))
    mid
  have hnl1 : ∀ b ∈ mid.takeWhile (fun b : Byte => decide (b.val = 10 ∨ b.val = 13)),
      b.val = 10 ∨ b.val = 13 := fun b hb => by
    simpa using List.mem_takeWhile_imp hb
  generalize mid.takeWhile (fun b : Byte => decide (b.val = 10 ∨ b.val = 13)) = nl1
    at hsplit1 hnl1
  have hsplit2 := List.takeWhile_append_dropWhile
    (fun b : Byte => decide (b.val = 10 ∨ b.val = 13))
    (mid.dropWhile (fun b : Byte => decide (b.val = 10 ∨ b.val = 13))).reverse
  have hnl2 : ∀ b ∈ ((mid.dropWhile (fun b : Byte => decide (b.val = 10 ∨ b.val = 13))).reverse.takeWhile
      (fun b : Byte => decide (b.val = 10 ∨ b.val = 13))), b.val = 10 ∨ b.val = 13 := fun b hb => by
    simpa using List.mem_takeWhile_imp hb
  generalize ((mid.dropWhile (fun b : Byte => decide (b.val = 10 ∨ b.val = 13))).reverse.takeWhile
      (fun b : Byte => decide (b.val = 10 ∨ b.val = 13))) = nl2r at hsplit2 hnl2
  have hcr : ∀ d t, (mid.dropWhile (fun b : Byte => decide (b.val = 10 ∨ b.val = 13))).reverse.dropWhile
      (fun b : Byte => decide (b.val = 10 ∨ b.val = 13)) = d :: t → ¬ (d.val = 10 ∨ d.val = 13) :=
    fun d t hd => by simpa using dropWhile_head_not hd
  generalize (mid.dropWhile (fun b : Byte => decide (b.val = 10 ∨ b.val = 13))).reverse.dropWhile
      (fun b : Byte => decide (b.val = 10 ∨ b.val = 13)) = cr at hsplit2 hcr
  have hm1 : ∀ c t, mid.dropWhile (fun b : Byte => decide (b.val = 10 ∨ b.val = 13)) = c :: t →
      ¬ (c.val = 10 ∨ c.val = 13) := fun c t hc => by simpa using dropWhile_head_not hc
  have hm1eq : mid.dropWhile (fun b : Byte => decide (b.val = 10 ∨ b.val = 13))
      = cr.reverse ++ nl2r.reverse := by
    rw [← List.reverse_append, hsplit2, List.reverse_reverse]
  rw [hm1eq] at hsplit1 hm1
  -- mid = nl1 ++ core ++ nl2
  have hnl2' : ∀ b ∈ nl2r.reverse, b.val = 10 ∨ b.val = 13 := fun b hb =>
    hnl2 b (List.mem_reverse.mp hb)
  obtain ⟨e1, s1⟩ := newline_run nl1 hnl1
  obtain ⟨e2, s2⟩ := newline_run nl2r.reverse hnl2'
  have hrm : removeNewlines mid = removeNewlines cr.reverse := by
    rw [← hsplit1, removeNewlines_append, removeNewlines_append,
      removeNewlines_of_newlines nl1 hnl1, removeNewlines_of_newlines _ hnl2']
    simp
  have hS : encodeRunes sp1 ++ mid ++ encodeRunes sp2
      = encodeRunes (sp1 ++ nl1.map (fun b => b.val))
        ++ (cr.reverse ++ encodeRunes (nl2r.reverse.map (fun b => b.val) ++ sp2)) := by
    rw [encodeRunes_append, encodeRunes_append, ← e1, ← e2, ← hsplit1]
    simp
  have hsp1 : ∀ r ∈ sp1 ++ nl1.map (fun b => b.val), IsSpace r = true := fun r hr => by
    rcases List.mem_append.mp hr with hr | hr
    · exact h1 r hr
    · exact s1 r hr
  have hsp2 : ∀ r ∈ nl2r.reverse.map (fun b => b.val) ++ sp2, IsSpace r = true := fun r hr => by
    rcases List.mem_append.mp hr with hr | hr
    · exact s2 r hr
    · exact h2 r hr
  rw [hS, hrm]
  unfold TrimSpace
  rw [TrimLeftSpace_spaces _ _ hsp1]
  rcases cr with _ | ⟨d, cr1⟩
  · rw [List.reverse_nil, List.nil_append]
    have := TrimLeftSpace_spaces _ [] hsp2
    rw [List.append_nil] at this
    rw [this]
    rfl
  · have hd := hcr d cr1 rfl
    have hdmem : d ∈ mid := by
      rw [← hsplit1]
      simp
    have hdp := hmid d (mem_removeNewlines hdmem hd)
    obtain ⟨c, x, hcx⟩ : ∃ c x, (d :: cr1).reverse = c :: x := by
      cases hrev : (d :: cr1).reverse with
      | nil => simp at hrev
      | cons c x => exact ⟨c, x, rfl⟩
    have hc := hm1 c (x ++ nl2r.reverse) (by rw [hcx]; rfl)
    have hcmem : c ∈ mid := by
      rw [← hsplit1, hcx]
      simp
    have hcp := hmid c (mem_removeNewlines hcmem hc)
    have hL : TrimLeftSpace ((d :: cr1).reverse ++ encodeRunes
        (nl2r.reverse.map (fun b => b.val) ++ sp2))
        = (d :: cr1).reverse ++ encodeRunes (nl2r.reverse.map (fun b => b.val) ++ sp2) := by
      apply TrimLeftSpace_of_not_space
      rw [hcx, List.cons_append, DecodeRune_ascii c _ hcp.1]
      exact hcp.2
    rw [hL, TrimRightSpace_spaces _ _ hsp2]
    have hR : TrimRightSpace (d :: cr1).reverse = (d :: cr1).reverse := by
      apply TrimRightSpace_of_not_space
      rw [List.reverse_cons, DecodeLastRune_ascii _ d hdp.1]
      exact hdp.2
    rw [hR]


/-! ## Where the markers are found -/

/-- A separator whose first byte does not occur again in it is found right after a text that
does not contain it. -/
theorem Index_after_clean (h : Byte) (t pre rest : GoString) (ht : h ∉ t)
    (hpre : ¬ (h :: t) <:+: pre) :
    Index (pre ++ (h :: t) ++ rest) (h :: t) = some pre.length := by
  rw [Index_eq_some_iff]
  refine ⟨?_, by simp, ?_⟩
  · rw [List.append_assoc, List.drop_left' rfl]
    exact List.prefix_append _ _
  · intro j hj hp
    have e : (pre ++ (h :: t) ++ rest).drop j = pre.drop j ++ ((h :: t) ++ rest) := by
      rw [List.append_assoc, List.drop_append_of_le_length (by omega)]
    rw [e] at hp
    rcases List.prefix_or_prefix_of_prefix hp (List.prefix_append (pre.drop j) _) with h1 | h1
    · exact hpre ((h1.isInfix).trans (List.drop_suffix j pre).isInfix)
    · obtain ⟨u, hu⟩ := h1
      have hdl : 0 < (pre.drop j).length := by rw [List.length_drop]; omega
      obtain ⟨a, x, hax⟩ : ∃ a x, pre.drop j = a :: x := by
        cases hd : pre.drop j with
        | nil => rw [hd] at hdl; simp at hdl
        | cons a x => exact ⟨a, x, rfl⟩
      rw [hax] at hu hp
      have ha : a = h := by
        injection hu with h1 _
      subst ha
      have hxu : x ++ u = t := by
        injection hu
      -- the separator continues into itself: its first byte occurs in its tail
      rw [← hu, List.append_assoc, List.prefix_append_right_inj] at hp
      have hune : u ≠ [] := by
        intro hu0
        subst hu0
        rw [List.append_nil] at hu
        apply hpre
        rw [← hu, ← hax]
        exact (List.drop_suffix j pre).isInfix
      rcases List.prefix_cons_iff.mp hp with h0 | ⟨t1, ht1, _⟩
      · exact hune h0
      · apply ht
        rw [← hxu, ht1]
        simp

/-- A separator that does not hold the byte `c` cannot reach over an occurrence of `c`. -/
theorem initial_stops_before (c : Byte) (sep A B : GoString) (hc : c ∉ sep)
    (h : sep <+: A ++ c :: B) : sep <+: A := by
  induction A generalizing sep with
  | nil =>
    rcases List.prefix_cons_iff.mp h with h0 | ⟨t, ht, _⟩
    · rw [h0]
    · exact absurd (by rw [ht]; simp) hc
  | cons a A ih =>
    rcases List.prefix_cons_iff.mp h with h0 | ⟨t, ht, ht2⟩
    · rw [h0]; exact List.nil_prefix
    · rw [ht]
      rw [ht] at hc
      exact (List.prefix_cons_inj a).mpr (ih t (fun hx => hc (List.mem_cons_of_mem _ hx)) ht2)

theorem infix_avoid_left (sep W M : GoString) (hsep : sep ≠ []) (hW : ∀ b ∈ W, b ∉ sep)
    (h : sep <:+: W ++ M) : sep <:+: M := by
  induction W with
  | nil => exact h
  | cons c W ih =>
    rw [List.cons_append, List.infix_cons_iff] at h
    rcases h with h | h
    · rcases List.prefix_cons_iff.mp h with h0 | ⟨t, ht, _⟩
      · exact absurd h0 hsep
      · exact absurd (by rw [ht]; simp) (hW c (List.mem_cons_self _ _))
    · exact ih (fun b hb => hW b (List.mem_cons_of_mem _ hb)) h

theorem infix_avoid_right (sep W M : GoString) (hsep : sep ≠ []) (hW : ∀ b ∈ W, b ∉ sep)
    (h : sep <:+: M ++ W) : sep <:+: M := by
  rw [← List.reverse_infix, List.reverse_append] at h
  rw [← List.reverse_infix]
  apply infix_avoid_left sep.reverse W.reverse M.reverse
  · simpa using hsep
  · intro b hb
    rw [List.mem_reverse] at hb ⊢
    exact hW b hb
  · exact h

set_option maxRecDepth 100000 in
theorem removeNewlines_lit_base64 : removeNewlines (lit "base64") = lit "base64" := by decide

theorem infix_removeNewlines (s : GoString) (h : lit "base64" <:+: s) :
    lit "base64" <:+: removeNewlines s := by
  obtain ⟨x, y, hxy⟩ := h
  rw [← hxy, removeNewlines_append, removeNewlines_append, removeNewlines_lit_base64]
  exact ⟨_, _, rfl⟩

theorem space_bytes (sp : List Nat) (h : ∀ r ∈ sp, IsSpace r = true) :
    ∀ b ∈ encodeRunes sp, 0x80 ≤ b.val ∨ IsSpace b.val = true := by
  intro b hb
  unfold encodeRunes at hb
  rw [List.mem_flatMap] at hb
  obtain ⟨r, hr, hbr⟩ := hb
  exact (spaceRune_facts r (IsSpace_cases r (h r hr))).2.2.2 b hbr

set_option maxRecDepth 100000 in
theorem base64_bytes : ∀ b ∈ lit "base64", b.val < 0x80 ∧ IsSpace b.val = false := by decide

set_option maxRecDepth 100000 in
theorem encodeStd_bytes : ∀ i : Fin 64,
    (encodeStd.getD i.val 0).val < 0x80 ∧ IsSpace (encodeStd.getD i.val 0).val = false
      ∧ (encodeStd.getD i.val 0).val ≠ 45 := by
  decide

theorem encodeChar_bytes (v : Nat) :
    (encodeChar v).val < 0x80 ∧ IsSpace (encodeChar v).val = false ∧ (encodeChar v).val ≠ 45 :=
  encodeStd_bytes ⟨v % 64, Nat.mod_lt _ (by decide)⟩

theorem padChar_bytes :
    padChar.val < 0x80 ∧ IsSpace padChar.val = false ∧ padChar.val ≠ 45 := by decide

/-- The bytes of an encoded text: ASCII, not white space, not `-`. -/
theorem EncodeToString_bytes (p : List Byte) :
    ∀ b ∈ EncodeToString p, b.val < 0x80 ∧ IsSpace b.val = false ∧ b.val ≠ 45 := by
  generalize hn : p.length = n
  induction n using Nat.strong_induction_on generalizing p with
  | _ n ih =>
    rcases p with _ | ⟨a, _ | ⟨b, _ | ⟨c, rest⟩⟩⟩
    · simp [EncodeToString]
    · intro x hx
      simp only [EncodeToString, List.mem_cons, List.mem_singleton, List.not_mem_nil,
        or_false] at hx
      rcases hx with hx | hx | hx | hx <;> subst hx <;>
        first | exact encodeChar_bytes _ | exact padChar_bytes
    · intro x hx
      simp only [EncodeToString, List.mem_cons, List.mem_singleton, List.not_mem_nil,
        or_false] at hx
      rcases hx with hx | hx | hx | hx <;> subst hx <;>
        first | exact encodeChar_bytes _ | exact padChar_bytes
    · intro x hx
      simp only [EncodeToString, List.mem_cons] at hx
      rcases hx with hx | hx | hx | hx | hx
      · subst hx; exact encodeChar_bytes _
      · subst hx; exact encodeChar_bytes _
      · subst hx; exact encodeChar_bytes _
      · subst hx; exact encodeChar_bytes _
      · exact ih rest.length (by rw [← hn]; simp only [List.length_cons]; omega) rest rfl x hx


/-! ## Content extraction -/

theorem lit_base64_cons : lit "base64" = 98 :: [97, 115, 101, 54, 52] := by decide

/-- The two cuts of `processEmails` give back a laid-out text that stands between the first
"base64" and a following "--". -/
theorem cuts_give_layout (pre laid suf : GoString)
    (hpre : ¬ lit "base64" <:+: pre) (hlaid : ¬ lit "base64" <:+: laid)
    (hdash : (45 : Byte) ∉ laid) :
    Contains (pre ++ lit "base64" ++ laid ++ lit "--" ++ suf) (lit "base64") = true
    ∧ beforeFirst (lit "--") (beforeFirst (lit "base64")
        (afterFirst (lit "base64") (pre ++ lit "base64" ++ laid ++ lit "--" ++ suf))) = laid := by
  have hbody : pre ++ lit "base64" ++ laid ++ lit "--" ++ suf
      = pre ++ lit "base64" ++ (laid ++ lit "--" ++ suf) := by simp
  have hI : Index (pre ++ lit "base64" ++ (laid ++ lit "--" ++ suf)) (lit "base64")
      = some pre.length := by
    have := Index_after_clean 98 [97, 115, 101, 54, 52] pre (laid ++ lit "--" ++ suf)
      (by decide) (by rw [← lit_base64_cons]; exact hpre)
    rw [← lit_base64_cons] at this
    exact this
  have hlen : (lit "base64").length = 6 := by decide
  rw [hbody]
  refine ⟨by unfold Contains; rw [hI]; rfl, ?_⟩
  have hafter : afterFirst (lit "base64") (pre ++ lit "base64" ++ (laid ++ lit "--" ++ suf))
      = laid ++ lit "--" ++ suf := by
    unfold afterFirst
    rw [hI]
    simp only
    rw [List.append_assoc, ← List.drop_drop, List.drop_left' rfl, List.drop_left' rfl]
  rw [hafter, lit_dashes]
  have h45 : (45 : Byte) ∉ lit "base64" := by decide
  have hne : lit "base64" ≠ [] := lit_base64_ne_nil
  -- no "base64" starts before the end of "--"
  have hno : ∀ j, j ≤ laid.length + 1 →
      ¬ lit "base64" <+: (laid ++ [45, 45] ++ suf).drop j := by
    intro j hj hp
    by_cases hjl : j ≤ laid.length
    · have e : (laid ++ [45, 45] ++ suf).drop j = laid.drop j ++ 45 :: (45 :: suf) := by
        rw [List.append_assoc, List.drop_append_of_le_length hjl]
        rfl
      rw [e] at hp
      have := initial_stops_before 45 _ _ _ h45 hp
      exact hlaid ((this.isInfix).trans (List.drop_suffix j laid).isInfix)
    · have hj2 : j = laid.length + 1 := by omega
      have e : (laid ++ [45, 45] ++ suf).drop j = [] ++ 45 :: suf := by
        rw [hj2, List.append_assoc, ← List.drop_drop, List.drop_left' rfl]
        rfl
      rw [e] at hp
      have := initial_stops_before 45 _ _ _ h45 hp
      exact hne (List.prefix_nil.mp this)
  -- the part before the next "base64" still starts with the laid-out text and "--"
  obtain ⟨suf1, hpart⟩ : ∃ suf1, beforeFirst (lit "base64") (laid ++ [45, 45] ++ suf)
      = laid ++ [45, 45] ++ suf1 := by
    unfold beforeFirst
    cases hk : Index (laid ++ [45, 45] ++ suf) (lit "base64") with
    | none => exact ⟨suf, rfl⟩
    | some k =>
      obtain ⟨hk1, _, _⟩ := (Index_eq_some_iff _ _ _).mp hk
      have hkge : laid.length + 2 ≤ k := by
        by_contra hcon
        exact hno k (by omega) hk1
      refine ⟨suf.take (k - (laid.length + 2)), ?_⟩
      simp only
      rw [List.take_append_eq_append_take]
      have e1 : (laid ++ [45, 45]).length = laid.length + 2 := by simp
      rw [e1, List.take_of_length_le (by rw [e1]; exact hkge)]
  rw [hpart]
  have hI2 : Index (laid ++ [45, 45] ++ suf1) [45, 45] = some laid.length := by
    rw [Index_eq_some_iff]
    refine ⟨?_, by simp, ?_⟩
    · rw [List.append_assoc, List.drop_left' rfl]
      exact List.prefix_append _ _
    · intro j hj hp
      have e : (laid ++ [45, 45] ++ suf1).drop j = laid.drop j ++ ([45, 45] ++ suf1) := by
        rw [List.append_assoc, List.drop_append_of_le_length (by omega)]
      rw [e] at hp
      have hdl : 0 < (laid.drop j).length := by rw [List.length_drop]; omega
      obtain ⟨a, x, hax⟩ : ∃ a x, laid.drop j = a :: x := by
        cases hd : laid.drop j with
        | nil => rw [hd] at hdl; simp at hdl
        | cons a x => exact ⟨a, x, rfl⟩
      rw [hax] at hp
      rcases List.prefix_cons_iff.mp hp with h0 | ⟨t, ht, _⟩
      · simp at h0
      · injection ht with ha _
        apply hdash
        rw [ha]
        have : a ∈ laid.drop j := by rw [hax]; simp
        exact List.mem_of_mem_drop this
  unfold beforeFirst
  rw [hI2]
  simp only
  rw [List.append_assoc, List.take_left' rfl]

/-- A laid-out encoding does not contain "base64" when the encoding does not, and holds no
`-`. -/
theorem layout_clean (sp1 sp2 : List Nat) (mid enc : GoString)
    (h1 : ∀ r ∈ sp1, IsSpace r = true) (h2 : ∀ r ∈ sp2, IsSpace r = true)
    (hmid : removeNewlines mid = enc)
    (henc : ¬ lit "base64" <:+: enc)
    (hbytes : ∀ b ∈ enc, b.val < 0x80 ∧ IsSpace b.val = false ∧ b.val ≠ 45) :
    ¬ lit "base64" <:+: encodeRunes sp1 ++ mid ++ encodeRunes sp2
    ∧ (45 : Byte) ∉ encodeRunes sp1 ++ mid ++ encodeRunes sp2 := by
  have hW : ∀ sp : List Nat, (∀ r ∈ sp, IsSpace r = true) →
      ∀ b ∈ encodeRunes sp, b ∉ lit "base64" ∧ b ≠ 45 := by
    intro sp hsp b hb
    have hsb := space_bytes sp hsp b hb
    constructor
    · intro hmem
      have := base64_bytes b hmem
      rcases hsb with hsb | hsb
      · omega
      · rw [this.2] at hsb
        exact absurd hsb (by simp)
    · intro h45
      subst h45
      revert hsb
      decide
  constructor
  · intro hinf
    have hi1 := infix_avoid_right _ _ _ lit_base64_ne_nil (fun b hb => (hW sp2 h2 b hb).1) hinf
    have hi2 := infix_avoid_left _ _ _ lit_base64_ne_nil (fun b hb => (hW sp1 h1 b hb).1) hi1
    apply henc
    rw [← hmid]
    exact infix_removeNewlines mid hi2
  · intro hmem
    rw [List.mem_append, List.mem_append] at hmem
    rcases hmem with (hmem | hmem) | hmem
    · exact (hW sp1 h1 _ hmem).2 rfl
    · have hn : ¬ ((45 : Byte).val = 10 ∨ (45 : Byte).val = 13) := by decide
      have := hbytes _ (by rw [← hmid]; exact mem_removeNewlines hmem hn)
      exact this.2.2 rfl
    · exact (hW sp2 h2 _ hmem).2 rfl

/-- C1: content extraction in `processEmails` undoes standard base64 encoding.  For every
byte string `p`, every text `pre` that does not contain "base64", every text `suf`, and
every layout of `EncodeToString p` that only adds white space around it (the code points
`sp1` before, `sp2` after) and LF/CR characters in it (`mid` without them is the encoding),
provided the encoding itself does not contain "base64", the content extracted from
`pre + "base64" + layout + "--" + suf` is exactly `p`. -/
theorem sectionContent_decodes_base64 (p : List Byte) (pre suf : GoString)
    (sp1 sp2 : List Nat) (mid : GoString)
    (hpre : Contains pre (lit "base64") = false)
    (henc : Contains (EncodeToString p) (lit "base64") = false)
    (hsp1 : ∀ r ∈ sp1, IsSpace r = true) (hsp2 : ∀ r ∈ sp2, IsSpace r = true)
    (hmid : removeNewlines mid = EncodeToString p) :
    processEmails.sectionContent
      (pre ++ lit "base64" ++ (encodeRunes sp1 ++ mid ++ encodeRunes sp2) ++ lit "--" ++ suf)
      = .ok p := by
  have hbytes := EncodeToString_bytes p
  obtain ⟨hl1, hl2⟩ := layout_clean sp1 sp2 mid _ hsp1 hsp2 hmid
    ((Contains_eq_false_iff _ _).mp henc) hbytes
  obtain ⟨hc, hcut⟩ := cuts_give_layout pre _ suf ((Contains_eq_false_iff _ _).mp hpre) hl1 hl2
  unfold processEmails.sectionContent
  rw [encodedContent_eq _ hc, hcut]
  simp only
  rw [removeNewlines_TrimSpace_layout sp1 sp2 mid hsp1 hsp2
    (fun b hb => by rw [hmid] at hb; exact ⟨(hbytes b hb).1, (hbytes b hb).2.1⟩), hmid,
    DecodeString_EncodeToString]

/-- The witness of C1: the body "...base64\nQUJD\n--end" yields "ABC". -/
theorem sectionContent_decodes_base64_witness :
    processEmails.sectionContent (lit "...base64\nQUJD\n--end") = .ok (lit "ABC") :=
  sectionContent_decodes_base64 (lit "ABC") (lit "...") (lit "end") [10] [10] (lit "QUJD")
    (by decide) (by decide) (by decide) (by decide) (by decide)

/-- C3: for every message body that contains the marker "base64" but whose marked segment
(the text handed to the decoder, after trimming and removal of LF/CR) is not valid padded
base64 over the standard alphabet, the content extracted is the whole raw body, byte for
byte; and for a message whose one readable section is this body, processing goes on to
the backend call, with the prompt made from the raw body. -/
theorem sectionContent_raw_on_invalid (config : Config) (msg : imap.Message) (o : Outcome)
    (bodyBytes segment : GoString) (front back : List imap.Literal)
    (hmarker : Contains bodyBytes (lit "base64") = true)
    (hsegment : processEmails.encodedContent bodyBytes = .ok segment)
    (hinvalid : validStdBase64 segment = false)
    (hfront : ∀ l ∈ front, l = .absent ∨ l = .unreadable)
    (hback : ∀ l ∈ back, l = .absent ∨ l = .unreadable)
    (hbody : msg.Body = front ++ .readable bodyBytes :: back) :
    processEmails.sectionContent bodyBytes = .ok bodyBytes
    ∧ processEmails.emailBody [] msg.Body = .ok bodyBytes
    ∧ (processEmails.step config msg o).1.head? =
        some (Event.backendCall (config.Llm.Host ++ config.Llm.Api)
          (CallChatGPT.request config
            (ReplaceAll config.Llm.Prompt (lit "[CHAT-RECORD]") bodyBytes))
          config.Llm.Token) := by
  have hseg := encodedContent_eq bodyBytes hmarker
  rw [hsegment] at hseg
  injection hseg with hseg
  have hdec : DecodeString segment = none := by
    rw [hseg]
    apply DecodeString_removeNewlines_of_invalid
    rw [← hseg]
    exact hinvalid
  have h1 : processEmails.sectionContent bodyBytes = .ok bodyBytes := by
    unfold processEmails.sectionContent
    rw [hsegment]
    simp only
    rw [hdec]
  have h2 : processEmails.emailBody [] msg.Body = .ok bodyBytes := by
    rw [hbody, emailBody_append [] front _ hfront]
    simp only [processEmails.emailBody, h1]
    exact emailBody_no_readable bodyBytes back hback
  exact ⟨h1, h2, step_head_of_emailBody config msg o bodyBytes h2⟩


/-- The witness of C3: the body "base64 !!! --" is marked, its segment "!!!" is not base64,
and the content is the raw body. -/
theorem sectionContent_raw_on_invalid_witness :
    processEmails.sectionContent (lit "base64 !!! --") = .ok (lit "base64 !!! --") :=
  (sectionContent_raw_on_invalid exampleConfig exampleRawMessage backendFails
    (lit "base64 !!! --") (lit "!!!") [] [] (by decide) (by decide) (by decide)
    (by simp) (by simp) rfl).1

end WechatSummary
